import Mathlib

/-!
# jminus: bytecode compiler, virtual machine and scope store

A shallow embedding of the core of the `jminus` interpreter
(`compiler.c`, `vm.c`, `environment.c`), together with theorems checking
the natural-language specification against it.

Modelling conventions:
* C `int` values are modelled as unbounded `Int` (the claims under study do
  not involve overflow); C truncating division is `Int.tdiv`, and division
  by zero (a fatal trap on the host) is modelled as a VM error.
* Fatal errors (`exit(1)`) are modelled as `none` / an `error` step result.
* Dynamic arrays are modelled as lists; `count` is the list length.
-/

namespace JMinus

/-- Opcodes, from the `OpCode` enum in `compiler.h`. -/
inductive OpCode where
  | bcConst
  | bcAdd
  | bcSub
  | bcMul
  | bcDiv
  | bcPrint
  | bcLoadVar
  | bcSetVar
  | bcDefineVar
  | bcStoreVar
  | bcEqual
  | bcNotEqual
  | bcLess
  | bcLessEqual
  | bcGreater
  | bcGreaterEqual
  | bcLoadConst
  | bcJumpIfFalse
  | bcJump
  | bcLoop
  | bcPop
  | bcHalt
  deriving DecidableEq, Repr

/-- One bytecode instruction: opcode plus one signed integer operand
(`Instruction` in `compiler.h`). -/
structure Instruction where
  opcode : OpCode
  operand : Int
  deriving DecidableEq, Repr

/-- A compiled program: instruction sequence plus constant pool
(`Bytecode` in `compiler.h`; the capacity fields are an allocation detail
and the `count` fields are the list lengths). -/
structure Bytecode where
  instructions : List Instruction
  constants : List Int
  deriving DecidableEq, Repr

/-- `emit` from `compiler.c`: append one instruction. -/
def emit (bc : Bytecode) (opcode : OpCode) (operand : Int) : Bytecode :=
  { bc with instructions := bc.instructions ++ [⟨opcode, operand⟩] }

/-- `add_constant` from `compiler.c`: append a literal to the constant pool
and return its index. -/
def add_constant (bc : Bytecode) (value : Int) : Bytecode × Nat :=
  ({ bc with constants := bc.constants ++ [value] }, bc.constants.length)

/-- Back-patching `bytecode->instructions[i].operand = t` from `compiler.c`. -/
def patchOperand (bc : Bytecode) (i : Nat) (t : Int) : Bytecode :=
  { bc with
    instructions :=
      bc.instructions.set i ⟨((bc.instructions.getD i ⟨.bcHalt, 0⟩)).opcode, t⟩ }

/-- Expressions, from the tagged union `Expr` in `parser.h`.  A literal
carries the integer its token text denotes (`atoi` of the lexeme); variable
and operator tokens carry their lexeme strings. -/
inductive Expr where
  | lit (value : Int)
  | evar (name : String)
  | binary (op : String) (left right : Expr)
  | call (callee : String) (args : List Expr)

/-- Statements, from the tagged union `Stmt` in `parser.h`. -/
inductive Stmt where
  | sexpr (e : Expr)
  | slet (name : String) (init : Expr)
  | yap (e : Expr)
  | sif (cond : Expr) (thenBranch : Stmt) (elseBranch : Option Stmt)
  | swhile (cond : Expr) (body : Stmt)
  | block (stmts : List Stmt)

/-- `name.lexeme[0]`: the compiler encodes an identifier as its first
character's code (an empty lexeme would read the terminating NUL, code 0). -/
def varId (s : String) : Int :=
  Int.ofNat ((s.toList.headD (Char.ofNat 0)).toNat)

/-- The `strcmp` chain of `compile_expr`'s binary case, factored out: the
opcode a (non-assignment) operator lexeme compiles to, tried in the order
the source tries them; `none` is the final "Unknown binary operator"
branch. -/
def binOpCode (op : String) : Option OpCode :=
  if op = "+" then some .bcAdd
  else if op = "-" then some .bcSub
  else if op = "*" then some .bcMul
  else if op = "/" then some .bcDiv
  else if op = "==" then some .bcEqual
  else if op = "!=" then some .bcNotEqual
  else if op = "<" then some .bcLess
  else if op = "<=" then some .bcLessEqual
  else if op = ">" then some .bcGreater
  else if op = ">=" then some .bcGreaterEqual
  else none

/-- `compile_expr` from `compiler.c`, as a state-passing function on the
bytecode under construction; `none` models the `exit(1)` paths (invalid
assignment target, unknown binary operator, unhandled expression tag).
The operator chain is `binOpCode`. -/
def compile_expr : Expr → Bytecode → Option Bytecode
  | .lit value, bc =>
      let r := add_constant bc value
      some (emit r.1 .bcConst (Int.ofNat r.2))
  | .evar name, bc => some (emit bc .bcLoadVar (varId name))
  | .binary op left right, bc =>
      if op = "=" then
        match left with
        | .evar name =>
            (compile_expr right bc).map (fun bc1 => emit bc1 .bcSetVar (varId name))
        | _ => none
      else
        (compile_expr left bc).bind fun bc1 =>
          (compile_expr right bc1).bind fun bc2 =>
            (binOpCode op).map fun opc => emit bc2 opc 0
  | .call _ _, _ => none

mutual

/-- `compile_stmt` from `compiler.c`.  Note that `STMT_LET` emits
`BC_SET_VAR` (not `BC_DEFINE_VAR`), exactly as the source does. -/
def compile_stmt : Stmt → Bytecode → Option Bytecode
  | .slet name init, bc =>
      (compile_expr init bc).map (fun bc1 => emit bc1 .bcSetVar (varId name))
  | .yap e, bc =>
      (compile_expr e bc).map (fun bc1 => emit bc1 .bcPrint 0)
  | .sexpr e, bc => compile_expr e bc
  | .sif cond thenBranch elseBranch, bc =>
      (compile_expr cond bc).bind fun bc1 =>
        let jump_if_false := bc1.instructions.length
        let bc2 := emit bc1 .bcJumpIfFalse 0
        (compile_stmt thenBranch bc2).bind fun bc3 =>
          match elseBranch with
          | some els =>
              let jump_end := bc3.instructions.length
              let bc4 := emit bc3 .bcJump 0
              let bc5 := patchOperand bc4 jump_if_false (Int.ofNat bc4.instructions.length)
              (compile_stmt els bc5).map fun bc6 =>
                patchOperand bc6 jump_end (Int.ofNat bc6.instructions.length)
          | none => some (patchOperand bc3 jump_if_false (Int.ofNat bc3.instructions.length))
  | .swhile cond body, bc =>
      let loop_start := bc.instructions.length
      (compile_expr cond bc).bind fun bc1 =>
        let jump_out := bc1.instructions.length
        let bc2 := emit bc1 .bcJumpIfFalse 0
        (compile_stmt body bc2).map fun bc3 =>
          let bc4 := emit bc3 .bcJump (Int.ofNat loop_start)
          patchOperand bc4 jump_out (Int.ofNat bc4.instructions.length)
  | .block stmts, bc => compile_stmt_list stmts bc

/-- The statement loop shared by `STMT_BLOCK` and `compile`. -/
def compile_stmt_list : List Stmt → Bytecode → Option Bytecode
  | [], bc => some bc
  | s :: rest, bc =>
      (compile_stmt s bc).bind fun bc1 => compile_stmt_list rest bc1

end

/-- `compile` from `compiler.c`: compile every top-level statement, then
emit the final `BC_HALT`. -/
def compile (stmts : List Stmt) : Option Bytecode :=
  (compile_stmt_list stmts ⟨[], []⟩).map (fun bc => emit bc .bcHalt 0)

end JMinus

namespace JMinus

/-- An environment level: entries in insertion order plus an optional
parent (`Environment` in `environment.h`; the fixed capacity of 128 is an
allocation detail). -/
inductive Env where
  | mk (entries : List (String × Int)) (parent : Option Env)

/-- The entry list of an environment level. -/
def Env.entries : Env → List (String × Int)
  | .mk es _ => es

/-- The parent of an environment level. -/
def Env.parent : Env → Option Env
  | .mk _ p => p

/-- `new_environment(NULL)`: a fresh, empty, parentless environment. -/
def Env.empty : Env := .mk [] none

/-- The `for (i = count-1; i >= 0; i--)` search shared by the environment
operations: scan the entries from the most recently added one backwards,
returning the value of the last entry whose name matches. -/
def lookupEntries : List (String × Int) → String → Option Int
  | [], _ => none
  | e :: rest, name =>
      match lookupEntries rest name with
      | some v => some v
      | none => if e.1 = name then some e.2 else none

/-- The same backwards search, updating the value of the entry it finds;
`none` when the name is absent from this level. -/
def assignEntries : List (String × Int) → String → Int → Option (List (String × Int))
  | [], _, _ => none
  | e :: rest, name, value =>
      match assignEntries rest name value with
      | some rest1 => some (e :: rest1)
      | none => if e.1 = name then some ((e.1, value) :: rest) else none

/-- `lookup_var` from `environment.c`: search this level from newest entry
to oldest, then the parent chain; `none` models the fatal
"Undefined variable" exit. -/
def lookup_var : Env → String → Option Int
  | .mk es none, name => lookupEntries es name
  | .mk es (some parent), name =>
      match lookupEntries es name with
      | some v => some v
      | none => lookup_var parent name

/-- `assign_var` from `environment.c`: update the binding in the innermost
level that has one; `none` models the fatal "Undefined variable" exit. -/
def assign_var : Env → String → Int → Option Env
  | .mk es none, name, value =>
      (assignEntries es name value).map (fun es1 => Env.mk es1 none)
  | .mk es (some parent), name, value =>
      match assignEntries es name value with
      | some es1 => some (Env.mk es1 (some parent))
      | none => (assign_var parent name value).map (fun p1 => Env.mk es (some p1))

/-- `define_var` from `environment.c`: update in place when the name is
already bound in this level, otherwise append a new entry to this level. -/
def define_var : Env → String → Int → Env
  | .mk es parent, name, value =>
      match assignEntries es name value with
      | some es1 => Env.mk es1 parent
      | none => Env.mk (es ++ [(name, value)]) parent

/-- The single-character variable name the VM rebuilds from an operand:
`char name[2] = { (char)var_id, 0 }` in `vm.c`. -/
def operandName (operand : Int) : String :=
  String.mk [Char.ofNat operand.toNat]

/-- The VM state between instruction dispatches: instruction pointer,
operand stack (head = top of stack), environment, and the list of values
handed to the output sink so far (oldest first). -/
structure VMState where
  ip : Nat
  stack : List Int
  env : Env
  output : List Int

/-- Result of dispatching one instruction. -/
inductive StepResult where
  | next (s : VMState)
  | halted (s : VMState)
  | error

/-- Array indexing with a C `int` subscript: out of range (including a
negative index) is out-of-bounds access, modelled as failure. -/
def idx? (l : List Int) (i : Int) : Option Int :=
  if i < 0 then none else l[i.toNat]?

/-- One arithmetic/comparison dispatch from `run` in `vm.c`: pop `b` (the
right operand, pushed second), pop `a` (the left), push `f a b`. -/
def binStep (f : Int → Int → Int) (s : VMState) : StepResult :=
  match s.stack with
  | b :: a :: rest => .next { s with ip := s.ip + 1, stack := f a b :: rest }
  | _ => .error

/-- Comparison results as C truth values. -/
def boolToInt (b : Bool) : Int := if b then 1 else 0

/-- One iteration of the `while (1)` dispatch loop of `run` in `vm.c`:
fetch the instruction at `ip` (fetching outside the program, a stack
underflow, an out-of-range constant index, an undefined variable, a
division by zero — the host trap — and the opcodes `run` does not handle
are all fatal). -/
def vmStep (bc : Bytecode) (s : VMState) : StepResult :=
  match bc.instructions[s.ip]? with
  | none => .error
  | some instr =>
    match instr.opcode with
    | .bcConst =>
        match idx? bc.constants instr.operand with
        | none => .error
        | some v => .next { s with ip := s.ip + 1, stack := v :: s.stack }
    | .bcAdd => binStep (fun a b => a + b) s
    | .bcSub => binStep (fun a b => a - b) s
    | .bcMul => binStep (fun a b => a * b) s
    | .bcDiv =>
        match s.stack with
        | b :: a :: rest =>
            if b = 0 then .error
            else .next { s with ip := s.ip + 1, stack := Int.tdiv a b :: rest }
        | _ => .error
    | .bcEqual => binStep (fun a b => boolToInt (a = b)) s
    | .bcNotEqual => binStep (fun a b => boolToInt (a ≠ b)) s
    | .bcLess => binStep (fun a b => boolToInt (a < b)) s
    | .bcLessEqual => binStep (fun a b => boolToInt (a ≤ b)) s
    | .bcGreater => binStep (fun a b => boolToInt (b < a)) s
    | .bcGreaterEqual => binStep (fun a b => boolToInt (b ≤ a)) s
    | .bcLoadVar =>
        match lookup_var s.env (operandName instr.operand) with
        | none => .error
        | some v => .next { s with ip := s.ip + 1, stack := v :: s.stack }
    | .bcSetVar =>
        match s.stack with
        | value :: rest =>
            match assign_var s.env (operandName instr.operand) value with
            | none => .error
            | some env1 => .next { s with ip := s.ip + 1, stack := rest, env := env1 }
        | [] => .error
    | .bcDefineVar =>
        match s.stack with
        | value :: rest =>
            .next { s with ip := s.ip + 1, stack := rest, env := define_var s.env (operandName instr.operand) value }
        | [] => .error
    | .bcPrint =>
        match s.stack with
        | value :: rest =>
            .next { s with ip := s.ip + 1, stack := rest, output := s.output ++ [value] }
        | [] => .error
    | .bcJumpIfFalse =>
        match s.stack with
        | cond :: rest =>
            if cond = 0 then
              if instr.operand < 0 then .error
              else .next { s with ip := instr.operand.toNat, stack := rest }
            else .next { s with ip := s.ip + 1, stack := rest }
        | [] => .error
    | .bcJump =>
        if instr.operand < 0 then .error
        else .next { s with ip := instr.operand.toNat }
    | .bcHalt => .halted { s with ip := s.ip + 1 }
    | _ => .error

/-- Iterate `vmStep` for exactly `n` non-final steps; `none` when the run
halts or dies before `n` dispatches.  Used to talk about every state at
which a fetch happens. -/
def vmIter (bc : Bytecode) : Nat → VMState → Option VMState
  | 0, s => some s
  | n + 1, s =>
      match vmStep bc s with
      | .next t => vmIter bc n t
      | _ => none

/-- Run to completion with fuel: `some` is normal termination at
`BC_HALT`, `none` is a fatal error or fuel exhaustion. -/
def vmRun (bc : Bytecode) : Nat → VMState → Option VMState
  | 0, _ => none
  | fuel + 1, s =>
      match vmStep bc s with
      | .next t => vmRun bc fuel t
      | .halted t => some t
      | .error => none

/-- The state `run` starts from for a given environment: `ip = 0`,
`sp = 0`, nothing printed yet. -/
def initState (env : Env) : VMState := ⟨0, [], env, []⟩

/-- The `static Environment* vm_env` of `vm.c`, as the process state
carried from one `run` call to the next: `none` models the initial NULL. -/
def ProcEnv := Option Env

/-- One call of `run` at process level: `if (!vm_env) vm_env =
new_environment(NULL);` then execute; the final environment is left in the
static for the next call, and nothing is discarded at run end. -/
def runOnce (p : ProcEnv) (bc : Bytecode) (fuel : Nat) : Option (ProcEnv × List Int) :=
  let env := p.getD Env.empty
  (vmRun bc fuel (initState env)).map (fun t => (some t.env, t.output))

end JMinus

namespace JMinus

/-- The identifier a source-level name actually denotes at runtime: the
compiler keeps only the first character (`lexeme[0]`) and the VM rebuilds
a one-character name from that code. -/
def truncName (s : String) : String := operandName (varId s)

/-- The value one arithmetic/comparison opcode computes from left operand
`a` and right operand `b`, exactly as the corresponding `run` case in
`vm.c` computes it; `none` for non-arithmetic opcodes and for the host
division-by-zero trap. -/
def arithResult (opc : OpCode) (a b : Int) : Option Int :=
  match opc with
  | .bcAdd => some (a + b)
  | .bcSub => some (a - b)
  | .bcMul => some (a * b)
  | .bcDiv => if b = 0 then none else some (Int.tdiv a b)
  | .bcEqual => some (boolToInt (a = b))
  | .bcNotEqual => some (boolToInt (a ≠ b))
  | .bcLess => some (boolToInt (a < b))
  | .bcLessEqual => some (boolToInt (a ≤ b))
  | .bcGreater => some (boolToInt (b < a))
  | .bcGreaterEqual => some (boolToInt (b ≤ a))
  | _ => none

/-- The host evaluation of `a op b`: the opcode the operator compiles to,
executed as `run` in `vm.c` executes it. -/
def binFn (op : String) (a b : Int) : Option Int :=
  (binOpCode op).bind fun opc => arithResult opc a b

/-- Reference evaluation of an expression: the value the compiled code of
the expression leaves on the stack, summarised as a function of the
environment.  Built to mirror `compile_expr` + `run` (in particular,
names are truncated to their first character); expressions whose compiled
code does not simply push one value (assignments) or does not compile or
run at all (unknown operators, calls, undefined variables, division by
zero) evaluate to `none`. -/
def evalExpr (env : Env) : Expr → Option Int
  | .lit v => some v
  | .evar n => lookup_var env (truncName n)
  | .binary op l r =>
      if op = "=" then none
      else
        (evalExpr env l).bind fun a =>
          (evalExpr env r).bind fun b => binFn op a b
  | .call _ _ => none

mutual

/-- Reference execution of a statement, mirroring what the compiled code
of the statement does: result is `(final environment, values printed,
values left behind on the operand stack — head topmost)`.  A bare
expression statement leaves its value on the stack (the compiler emits no
pop), an assignment or `let` leaves nothing (both compile to
`BC_SET_VAR`, which assigns to an existing binding and pushes no result).
`fuel` bounds the number of while-loop iterations. -/
def execStmt : Nat → Env → Stmt → Option (Env × List Int × List Int)
  | _, env, .slet n e =>
      (evalExpr env e).bind fun v =>
        (assign_var env (truncName n) v).map fun env1 => (env1, [], [])
  | _, env, .yap e => (evalExpr env e).map fun v => (env, [v], [])
  | _, env, .sexpr e =>
      match e with
      | .binary op l r =>
          if op = "=" then
            match l with
            | .evar n =>
                (evalExpr env r).bind fun v =>
                  (assign_var env (truncName n) v).map fun env1 => (env1, [], [])
            | _ => none
          else (evalExpr env (.binary op l r)).map fun v => (env, [], [v])
      | e1 => (evalExpr env e1).map fun v => (env, [], [v])
  | fuel, env, .sif c t els =>
      (evalExpr env c).bind fun v =>
        if v = 0 then
          match els with
          | some e => execStmt fuel env e
          | none => some (env, [], [])
        else execStmt fuel env t
  | 0, _, .swhile _ _ => none
  | fuel + 1, env, .swhile c b =>
      (evalExpr env c).bind fun v =>
        if v = 0 then some (env, [], [])
        else
          (execStmt (fuel + 1) env b).bind fun r1 =>
            (execStmt fuel r1.1 (.swhile c b)).map fun r2 =>
              (r2.1, r1.2.1 ++ r2.2.1, r2.2.2 ++ r1.2.2)
  | fuel, env, .block ss => execStmtList fuel env ss

/-- Reference execution of a statement list, left to right, accumulating
printed values in order and stack leftovers with the newest on top. -/
def execStmtList : Nat → Env → List Stmt → Option (Env × List Int × List Int)
  | _, env, [] => some (env, [], [])
  | fuel, env, s :: rest =>
      (execStmt fuel env s).bind fun r1 =>
        (execStmtList fuel r1.1 rest).map fun r2 =>
          (r2.1, r1.2.1 ++ r2.2.1, r2.2.2 ++ r1.2.2)

end

end JMinus

namespace JMinus

/-- Reachability in the VM: `t` is reached from `s` after finitely many
`next` dispatches (each of which fetches an instruction). -/
def Reaches (bc : Bytecode) (s t : VMState) : Prop :=
  ∃ n, vmIter bc n s = some t

theorem Reaches.refl (bc : Bytecode) (s : VMState) : Reaches bc s s :=
  ⟨0, rfl⟩

theorem vmIter_add (bc : Bytecode) (m n : Nat) (s : VMState) :
    vmIter bc (m + n) s = (vmIter bc m s).bind (vmIter bc n) := by
  induction m generalizing s with
  | zero => simp [vmIter]
  | succ k ih =>
      have h1 : k + 1 + n = (k + n) + 1 := by omega
      rw [h1]
      cases h : vmStep bc s with
      | next t => simp only [vmIter, h]; exact ih t
      | halted t => simp only [vmIter, h]; rfl
      | error => simp only [vmIter, h]; rfl

theorem Reaches.trans {bc : Bytecode} {s t u : VMState}
    (h1 : Reaches bc s t) (h2 : Reaches bc t u) : Reaches bc s u := by
  obtain ⟨m, hm⟩ := h1
  obtain ⟨n, hn⟩ := h2
  exact ⟨m + n, by rw [vmIter_add, hm]; exact hn⟩

theorem Reaches.single {bc : Bytecode} {s t : VMState}
    (h : vmStep bc s = .next t) : Reaches bc s t :=
  ⟨1, by simp [vmIter, h]⟩

/-- A `vmIter` run followed by a halting dispatch is a completed `vmRun`. -/
theorem vmRun_of_iter {bc : Bytecode} {t u : VMState} (h2 : vmStep bc t = .halted u) :
    ∀ (n : Nat) (s : VMState), vmIter bc n s = some t → ∃ fuel, vmRun bc fuel s = some u
  | 0, s, hn => by cases hn; exact ⟨1, by simp [vmRun, h2]⟩
  | n + 1, s, hn => by
      cases hstep : vmStep bc s with
      | next t1 =>
          have hn1 : vmIter bc n t1 = some t := by simpa [vmIter, hstep] using hn
          obtain ⟨fuel, hf⟩ := vmRun_of_iter h2 n t1 hn1
          exact ⟨fuel + 1, by simp [vmRun, hstep, hf]⟩
      | halted t1 => simp [vmIter, hstep] at hn
      | error => simp [vmIter, hstep] at hn

/-- A `Reaches` run followed by a halting dispatch is a completed `vmRun`. -/
theorem vmRun_of_reaches {bc : Bytecode} {s t u : VMState}
    (h1 : Reaches bc s t) (h2 : vmStep bc t = .halted u) :
    ∃ fuel, vmRun bc fuel s = some u := by
  obtain ⟨n, hn⟩ := h1
  exact vmRun_of_iter h2 n s hn

theorem length_emit (bc : Bytecode) (opc : OpCode) (w : Int) :
    (emit bc opc w).instructions.length = bc.instructions.length + 1 := by
  simp [emit]

theorem constants_emit (bc : Bytecode) (opc : OpCode) (w : Int) :
    (emit bc opc w).constants = bc.constants := rfl

theorem getElem?_emit_self (bc : Bytecode) (opc : OpCode) (w : Int) :
    (emit bc opc w).instructions[bc.instructions.length]? = some ⟨opc, w⟩ :=
  List.getElem?_concat_length _ _

theorem getElem?_emit_lt (bc : Bytecode) (opc : OpCode) (w : Int) {i : Nat}
    (h : i < bc.instructions.length) :
    (emit bc opc w).instructions[i]? = bc.instructions[i]? :=
  List.getElem?_append_left h

theorem length_patch (bc : Bytecode) (i : Nat) (t : Int) :
    (patchOperand bc i t).instructions.length = bc.instructions.length := by
  simp [patchOperand]

theorem constants_patch (bc : Bytecode) (i : Nat) (t : Int) :
    (patchOperand bc i t).constants = bc.constants := rfl

theorem getElem?_patch_ne (bc : Bytecode) (i : Nat) (t : Int) {j : Nat} (h : i ≠ j) :
    (patchOperand bc i t).instructions[j]? = bc.instructions[j]? :=
  List.getElem?_set_ne h

theorem getElem?_patch_self (bc : Bytecode) (i : Nat) (t : Int) {instr : Instruction}
    (h : bc.instructions[i]? = some instr) :
    (patchOperand bc i t).instructions[i]? = some ⟨instr.opcode, t⟩ := by
  have hlt : i < bc.instructions.length := by
    by_contra hge
    rw [List.getElem?_eq_none (by omega)] at h
    cases h
  have hd : bc.instructions.getD i ⟨.bcHalt, 0⟩ = instr := by
    simp [List.getD, List.get?_eq_getElem?, h]
  unfold patchOperand
  rw [hd]
  exact List.getElem?_set_self hlt

end JMinus

namespace JMinus

theorem IsPrefix.getElem?_eq {α : Type} {l1 l2 : List α} (h : l1 <+: l2) {i : Nat}
    (hi : i < l1.length) : l2[i]? = l1[i]? := by
  obtain ⟨t, rfl⟩ := h
  exact List.getElem?_append_left hi

theorem prefix_set_of_le {α : Type} {l1 l2 : List α} (h : l1 <+: l2) {i : Nat}
    (hi : l1.length ≤ i) (x : α) : l1 <+: l2.set i x := by
  obtain ⟨t, rfl⟩ := h
  rw [List.set_append]
  rcases Nat.lt_or_ge i l1.length with hlt | hge
  · omega
  · rw [if_neg (by omega)]
    exact List.prefix_append _ _

/-- The compiler only ever appends to the instruction sequence and the
constant pool (patching rewrites an operand in place, inside the region
the current statement added). -/
def Extends (bc bc' : Bytecode) : Prop :=
  bc.instructions <+: bc'.instructions ∧ bc.constants <+: bc'.constants

def Extends.refl (bc : Bytecode) : Extends bc bc :=
  ⟨List.prefix_refl _, List.prefix_refl _⟩

def Extends.trans {a b c : Bytecode} (h1 : Extends a b) (h2 : Extends b c) :
    Extends a c :=
  ⟨h1.1.trans h2.1, h1.2.trans h2.2⟩

theorem extends_emit (bc : Bytecode) (opc : OpCode) (w : Int) :
    Extends bc (emit bc opc w) :=
  ⟨List.prefix_append _ _, List.prefix_refl _⟩

theorem extends_add_constant (bc : Bytecode) (v : Int) :
    Extends bc (add_constant bc v).1 :=
  ⟨List.prefix_refl _, List.prefix_append _ _⟩

theorem extends_patch (bc bc0 : Bytecode) (i : Nat) (t : Int)
    (hi : bc0.instructions.length ≤ i) (h : Extends bc0 bc) :
    Extends bc0 (patchOperand bc i t) :=
  ⟨prefix_set_of_le h.1 hi _, h.2⟩

theorem compile_expr_extends :
    ∀ (e : Expr) (bc bc' : Bytecode), compile_expr e bc = some bc' → Extends bc bc'
  | .lit v, bc, bc', h => by
      simp only [compile_expr] at h
      cases h
      exact (extends_add_constant bc v).trans (extends_emit _ _ _)
  | .evar n, bc, bc', h => by
      simp only [compile_expr] at h
      cases h
      exact extends_emit _ _ _
  | .binary op l r, bc, bc', h => by
      simp only [compile_expr] at h
      split at h
      · -- assignment case: op = "="
        split at h
        · rw [Option.map_eq_some'] at h
          obtain ⟨bc1, h1, h2⟩ := h
          subst h2
          exact (compile_expr_extends r bc bc1 h1).trans (extends_emit _ _ _)
        · cases h
      · -- ordinary operator chain
        rw [Option.bind_eq_some] at h
        obtain ⟨bc1, h1, h⟩ := h
        rw [Option.bind_eq_some] at h
        obtain ⟨bc2, h2, h⟩ := h
        rw [Option.map_eq_some'] at h
        obtain ⟨opc, _, h3⟩ := h
        subst h3
        exact ((compile_expr_extends l bc bc1 h1).trans
          (compile_expr_extends r bc1 bc2 h2)).trans (extends_emit _ _ _)
  | .call f args, bc, bc', h => by
      simp only [compile_expr] at h
      cases h

end JMinus

namespace JMinus

theorem Extends.length_le {a b : Bytecode} (h : Extends a b) :
    a.instructions.length ≤ b.instructions.length :=
  h.1.length_le

mutual

theorem compile_stmt_extends :
    ∀ (s : Stmt) (bc bc' : Bytecode), compile_stmt s bc = some bc' → Extends bc bc'
  | .slet n e, bc, bc', h => by
      simp only [compile_stmt, Option.map_eq_some'] at h
      obtain ⟨bc1, h1, h2⟩ := h
      subst h2
      exact (compile_expr_extends e bc bc1 h1).trans (extends_emit _ _ _)
  | .yap e, bc, bc', h => by
      simp only [compile_stmt, Option.map_eq_some'] at h
      obtain ⟨bc1, h1, h2⟩ := h
      subst h2
      exact (compile_expr_extends e bc bc1 h1).trans (extends_emit _ _ _)
  | .sexpr e, bc, bc', h => by
      simp only [compile_stmt] at h
      exact compile_expr_extends e bc bc' h
  | .sif cond thenBranch elseBranch, bc, bc', h => by
      simp only [compile_stmt, Option.bind_eq_some] at h
      obtain ⟨bc1, h1, h⟩ := h
      obtain ⟨bc3, h3, h⟩ := h
      have e1 : Extends bc bc1 := compile_expr_extends cond bc bc1 h1
      have e3 : Extends bc bc3 :=
        (e1.trans (extends_emit _ _ _)).trans
          (compile_stmt_extends thenBranch (emit bc1 .bcJumpIfFalse 0) bc3 h3)
      cases elseBranch with
      | none =>
          simp only at h
          cases h
          exact extends_patch _ _ _ _ (le_trans e1.length_le (le_refl _)) e3
      | some els =>
          simp only [Option.map_eq_some'] at h
          obtain ⟨bc6, h6, h7⟩ := h
          subst h7
          have e4 : Extends bc (emit bc3 .bcJump 0) := e3.trans (extends_emit _ _ _)
          have e5 : Extends bc (patchOperand (emit bc3 .bcJump 0) bc1.instructions.length
              (Int.ofNat (emit bc3 .bcJump 0).instructions.length)) :=
            extends_patch _ _ _ _ e1.length_le e4
          have e6 : Extends bc bc6 := e5.trans (compile_stmt_extends els _ bc6 h6)
          exact extends_patch _ _ _ _ e3.length_le e6
  | .swhile cond body, bc, bc', h => by
      simp only [compile_stmt, Option.bind_eq_some] at h
      obtain ⟨bc1, h1, h⟩ := h
      simp only [Option.map_eq_some'] at h
      obtain ⟨bc3, h3, h4⟩ := h
      subst h4
      have e1 : Extends bc bc1 := compile_expr_extends cond bc bc1 h1
      have e3 : Extends bc bc3 :=
        (e1.trans (extends_emit _ _ _)).trans
          (compile_stmt_extends body (emit bc1 .bcJumpIfFalse 0) bc3 h3)
      exact extends_patch _ _ _ _ e1.length_le (e3.trans (extends_emit _ _ _))
  | .block stmts, bc, bc', h => by
      simp only [compile_stmt] at h
      exact compile_stmt_list_extends stmts bc bc' h

theorem compile_stmt_list_extends :
    ∀ (ss : List Stmt) (bc bc' : Bytecode), compile_stmt_list ss bc = some bc' → Extends bc bc'
  | [], bc, bc', h => by
      simp only [compile_stmt_list] at h
      cases h
      exact Extends.refl _
  | s :: rest, bc, bc', h => by
      simp only [compile_stmt_list, Option.bind_eq_some] at h
      obtain ⟨bc1, h1, h2⟩ := h
      exact (compile_stmt_extends s bc bc1 h1).trans (compile_stmt_list_extends rest bc1 bc' h2)

end

end JMinus

namespace JMinus

theorem region_transfer {full bcBig bcSmall : Bytecode} {lo lo' : Nat}
    (hsmall : bcSmall.instructions <+: bcBig.instructions)
    (hlo : lo ≤ lo')
    (hreg : ∀ i, lo ≤ i → i < bcBig.instructions.length →
      full.instructions[i]? = bcBig.instructions[i]?) :
    ∀ i, lo' ≤ i → i < bcSmall.instructions.length →
      full.instructions[i]? = bcSmall.instructions[i]? := by
  intro i h1 h2
  rw [hreg i (le_trans hlo h1) (lt_of_lt_of_le h2 hsmall.length_le)]
  exact IsPrefix.getElem?_eq hsmall h2

/-- One arithmetic/comparison dispatch, described through `arithResult`:
with `b` on top of the stack (popped first, the right operand) and `a`
below it, the VM pushes the one result `arithResult opc a b`. -/
theorem vmStep_arith {bc : Bytecode} {s : VMState} {opc : OpCode} {w : Int}
    {a b v : Int} {rest : List Int}
    (hfetch : bc.instructions[s.ip]? = some ⟨opc, w⟩)
    (hstack : s.stack = b :: a :: rest)
    (hres : arithResult opc a b = some v) :
    vmStep bc s = .next { s with ip := s.ip + 1, stack := v :: rest } := by
  cases opc with
  | bcAdd =>
      simp only [arithResult, Option.some.injEq] at hres
      subst hres; simp [vmStep, hfetch, binStep, hstack]
  | bcSub =>
      simp only [arithResult, Option.some.injEq] at hres
      subst hres; simp [vmStep, hfetch, binStep, hstack]
  | bcMul =>
      simp only [arithResult, Option.some.injEq] at hres
      subst hres; simp [vmStep, hfetch, binStep, hstack]
  | bcDiv =>
      simp only [arithResult] at hres
      split at hres
      · cases hres
      · simp only [Option.some.injEq] at hres
        subst hres
        simp only [vmStep, hfetch, hstack]
        split
        · omega
        · rfl
  | bcEqual =>
      simp only [arithResult, Option.some.injEq] at hres
      subst hres; simp [vmStep, hfetch, binStep, hstack]
  | bcNotEqual =>
      simp only [arithResult, Option.some.injEq] at hres
      subst hres; simp [vmStep, hfetch, binStep, hstack]
  | bcLess =>
      simp only [arithResult, Option.some.injEq] at hres
      subst hres; simp [vmStep, hfetch, binStep, hstack]
  | bcLessEqual =>
      simp only [arithResult, Option.some.injEq] at hres
      subst hres; simp [vmStep, hfetch, binStep, hstack]
  | bcGreater =>
      simp only [arithResult, Option.some.injEq] at hres
      subst hres; simp [vmStep, hfetch, binStep, hstack]
  | bcGreaterEqual =>
      simp only [arithResult, Option.some.injEq] at hres
      subst hres; simp [vmStep, hfetch, binStep, hstack]
  | bcConst => simp [arithResult] at hres
  | bcPrint => simp [arithResult] at hres
  | bcLoadVar => simp [arithResult] at hres
  | bcSetVar => simp [arithResult] at hres
  | bcDefineVar => simp [arithResult] at hres
  | bcStoreVar => simp [arithResult] at hres
  | bcLoadConst => simp [arithResult] at hres
  | bcJumpIfFalse => simp [arithResult] at hres
  | bcJump => simp [arithResult] at hres
  | bcLoop => simp [arithResult] at hres
  | bcPop => simp [arithResult] at hres
  | bcHalt => simp [arithResult] at hres

end JMinus

namespace JMinus

/-- Compiled-expression correctness: the code `compile_expr` adds for `e`
occupies `[bc.count, bc'.count)`; run inside any program whose
instructions agree with `bc'` on that region (and whose constant pool
extends `bc'`'s), it pushes exactly the reference value of `e` and
touches nothing else. -/
theorem compile_expr_sim :
    ∀ (e : Expr) (bc bc' : Bytecode), compile_expr e bc = some bc' →
    ∀ (full : Bytecode),
      (∀ i, bc.instructions.length ≤ i → i < bc'.instructions.length →
        full.instructions[i]? = bc'.instructions[i]?) →
      bc'.constants <+: full.constants →
    ∀ (env : Env) (stack out : List Int) (v : Int), evalExpr env e = some v →
      Reaches full ⟨bc.instructions.length, stack, env, out⟩
        ⟨bc'.instructions.length, v :: stack, env, out⟩
  | .lit value, bc, bc', hc, full, hreg, hconst, env, stack, out, v, he => by
      simp only [compile_expr] at hc
      cases hc
      simp only [evalExpr, Option.some.injEq] at he
      subst he
      have hlen : (emit (add_constant bc value).1 .bcConst
          (Int.ofNat (add_constant bc value).2)).instructions.length
          = bc.instructions.length + 1 := by
        simp [emit, add_constant]
      have hfetch : full.instructions[bc.instructions.length]? =
          some ⟨.bcConst, Int.ofNat bc.constants.length⟩ := by
        rw [hreg bc.instructions.length (le_refl _) (by omega)]
        exact List.getElem?_concat_length _ _
      have hval : full.constants[bc.constants.length]? = some value := by
        rw [IsPrefix.getElem?_eq hconst (by simp [emit, add_constant])]
        exact List.getElem?_concat_length _ _
      rw [hlen]
      apply Reaches.single
      simp only [vmStep, hfetch, idx?, Int.ofNat_eq_natCast, Int.toNat_natCast]
      rw [if_neg (Int.not_lt.mpr (Int.natCast_nonneg bc.constants.length)), hval]
  | .evar name, bc, bc', hc, full, hreg, hconst, env, stack, out, v, he => by
      simp only [compile_expr] at hc
      cases hc
      simp only [evalExpr, truncName] at he
      have hfetch : full.instructions[bc.instructions.length]? =
          some ⟨.bcLoadVar, varId name⟩ := by
        rw [hreg bc.instructions.length (le_refl _) (by simp [emit])]
        exact List.getElem?_concat_length _ _
      rw [length_emit]
      apply Reaches.single
      simp [vmStep, hfetch, he]
  | .binary op l r, bc, bc', hc, full, hreg, hconst, env, stack, out, v, he => by
      simp only [compile_expr] at hc
      simp only [evalExpr] at he
      split at hc
      · -- op = "=": the reference evaluation refuses assignments
        rename_i hop
        rw [if_pos hop] at he
        cases he
      · rename_i hop
        rw [if_neg hop] at he
        rw [Option.bind_eq_some] at hc
        obtain ⟨bc1, hcl, hc⟩ := hc
        rw [Option.bind_eq_some] at hc
        obtain ⟨bc2, hcr, hc⟩ := hc
        rw [Option.map_eq_some'] at hc
        obtain ⟨opc, hopc, hc⟩ := hc
        subst hc
        rw [Option.bind_eq_some] at he
        obtain ⟨a, hel, he⟩ := he
        rw [Option.bind_eq_some] at he
        obtain ⟨b, her, hbf⟩ := he
        rw [binFn, hopc, Option.some_bind] at hbf
        have ext1 : Extends bc bc1 := compile_expr_extends l bc bc1 hcl
        have ext2 : Extends bc1 bc2 := compile_expr_extends r bc1 bc2 hcr
        have ext3 : Extends bc2 (emit bc2 opc 0) := extends_emit _ _ _
        have hreach1 : Reaches full ⟨bc.instructions.length, stack, env, out⟩
            ⟨bc1.instructions.length, a :: stack, env, out⟩ :=
          compile_expr_sim l bc bc1 hcl full
            (region_transfer (ext2.1.trans ext3.1) (le_refl _) hreg)
            ((ext2.2.trans ext3.2).trans hconst) env stack out a hel
        have hreach2 : Reaches full ⟨bc1.instructions.length, a :: stack, env, out⟩
            ⟨bc2.instructions.length, b :: a :: stack, env, out⟩ :=
          compile_expr_sim r bc1 bc2 hcr full
            (region_transfer ext3.1 ext1.length_le hreg)
            (ext3.2.trans hconst) env (a :: stack) out b her
        have hfetch : full.instructions[bc2.instructions.length]? = some ⟨opc, 0⟩ := by
          rw [hreg bc2.instructions.length (le_trans ext1.length_le ext2.length_le)
            (by simp [emit])]
          exact List.getElem?_concat_length _ _
        have hstep := vmStep_arith (s := ⟨bc2.instructions.length, b :: a :: stack, env, out⟩)
          hfetch rfl hbf
        rw [length_emit]
        exact (hreach1.trans hreach2).trans (Reaches.single hstep)
  | .call f args, bc, bc', hc, full, hreg, hconst, env, stack, out, v, he => by
      simp only [compile_expr] at hc
      cases hc

end JMinus

namespace JMinus

theorem vmStep_setVar {bc : Bytecode} {s : VMState} {w v : Int} {rest : List Int}
    {env1 : Env}
    (hfetch : bc.instructions[s.ip]? = some ⟨.bcSetVar, w⟩)
    (hstack : s.stack = v :: rest)
    (hassign : assign_var s.env (operandName w) v = some env1) :
    vmStep bc s = .next { s with ip := s.ip + 1, stack := rest, env := env1 } := by
  simp [vmStep, hfetch, hstack, hassign]

theorem vmStep_print {bc : Bytecode} {s : VMState} {w v : Int} {rest : List Int}
    (hfetch : bc.instructions[s.ip]? = some ⟨.bcPrint, w⟩)
    (hstack : s.stack = v :: rest) :
    vmStep bc s = .next { s with ip := s.ip + 1, stack := rest, output := s.output ++ [v] } := by
  simp [vmStep, hfetch, hstack]

theorem vmStep_jif_false {bc : Bytecode} {s : VMState} {t : Nat} {rest : List Int}
    (hfetch : bc.instructions[s.ip]? = some ⟨.bcJumpIfFalse, Int.ofNat t⟩)
    (hstack : s.stack = 0 :: rest) :
    vmStep bc s = .next { s with ip := t, stack := rest } := by
  have hnn : ¬ ((Int.ofNat t) < 0) := by simp [Int.ofNat_eq_natCast]
  simp [vmStep, hfetch, hstack, hnn, Int.ofNat_eq_natCast, Int.toNat_natCast]

theorem vmStep_jif_true {bc : Bytecode} {s : VMState} {w v : Int} {rest : List Int}
    (hfetch : bc.instructions[s.ip]? = some ⟨.bcJumpIfFalse, w⟩)
    (hstack : s.stack = v :: rest) (hv : v ≠ 0) :
    vmStep bc s = .next { s with ip := s.ip + 1, stack := rest } := by
  simp [vmStep, hfetch, hstack, hv]

theorem vmStep_jump {bc : Bytecode} {s : VMState} {t : Nat}
    (hfetch : bc.instructions[s.ip]? = some ⟨.bcJump, Int.ofNat t⟩) :
    vmStep bc s = .next { s with ip := t } := by
  have hnn : ¬ ((Int.ofNat t) < 0) := by simp [Int.ofNat_eq_natCast]
  simp [vmStep, hfetch, hnn, Int.ofNat_eq_natCast, Int.toNat_natCast]

theorem vmStep_halt {bc : Bytecode} {s : VMState} {w : Int}
    (hfetch : bc.instructions[s.ip]? = some ⟨.bcHalt, w⟩) :
    vmStep bc s = .halted { s with ip := s.ip + 1 } := by
  simp [vmStep, hfetch]

theorem region_transfer' {full bcOut bcMid : Bytecode} {lo lo' : Nat}
    (hreg : ∀ i, lo ≤ i → i < bcOut.instructions.length →
      full.instructions[i]? = bcOut.instructions[i]?)
    (hagree : ∀ i, lo' ≤ i → i < bcMid.instructions.length →
      bcOut.instructions[i]? = bcMid.instructions[i]?)
    (hlo : lo ≤ lo') (hlen : bcMid.instructions.length ≤ bcOut.instructions.length) :
    ∀ i, lo' ≤ i → i < bcMid.instructions.length →
      full.instructions[i]? = bcMid.instructions[i]? :=
  fun i h1 h2 =>
    (hreg i (le_trans hlo h1) (lt_of_lt_of_le h2 hlen)).trans (hagree i h1 h2)

end JMinus

namespace JMinus

mutual

/-- Compiled-statement correctness: the code `compile_stmt` adds for `st`
occupies `[bc.count, bc'.count)`; run inside any program agreeing with
`bc'` there, it performs exactly the reference execution of `st`:
final environment `r.1`, printed values `r.2.1` appended to the output,
stack leftovers `r.2.2` pushed on top of the incoming stack. -/
theorem compile_stmt_sim :
    ∀ (fuel : Nat) (st : Stmt) (env : Env) (r : Env × List Int × List Int),
      execStmt fuel env st = some r →
    ∀ (bc bc' : Bytecode), compile_stmt st bc = some bc' →
    ∀ (full : Bytecode),
      (∀ i, bc.instructions.length ≤ i → i < bc'.instructions.length →
        full.instructions[i]? = bc'.instructions[i]?) →
      bc'.constants <+: full.constants →
    ∀ (stack out : List Int),
      Reaches full ⟨bc.instructions.length, stack, env, out⟩
        ⟨bc'.instructions.length, r.2.2 ++ stack, r.1, out ++ r.2.1⟩
  | fuel, .slet n e, env, r, hexec, bc, bc', hc, full, hreg, hconst, stack, out => by
      simp only [execStmt, Option.bind_eq_some] at hexec
      obtain ⟨v, hev, hexec⟩ := hexec
      rw [Option.map_eq_some'] at hexec
      obtain ⟨env1, hassign, hr⟩ := hexec
      subst hr
      simp only [compile_stmt, Option.map_eq_some'] at hc
      obtain ⟨bcE, hce, hc⟩ := hc
      subst hc
      have extE : Extends bc bcE := compile_expr_extends e bc bcE hce
      have hreach1 := compile_expr_sim e bc bcE hce full
        (region_transfer (extends_emit bcE .bcSetVar (varId n)).1 (le_refl _) hreg)
        hconst env stack out v hev
      have hfetch : full.instructions[bcE.instructions.length]? =
          some ⟨.bcSetVar, varId n⟩ := by
        rw [hreg bcE.instructions.length extE.length_le (by rw [length_emit]; omega)]
        exact getElem?_emit_self _ _ _
      have hassign1 : assign_var env (operandName (varId n)) v = some env1 := by
        simpa [truncName] using hassign
      have hstep := vmStep_setVar (s := ⟨bcE.instructions.length, v :: stack, env, out⟩)
        hfetch rfl hassign1
      rw [length_emit]
      simpa using hreach1.trans (Reaches.single hstep)
  | fuel, .yap e, env, r, hexec, bc, bc', hc, full, hreg, hconst, stack, out => by
      simp only [execStmt, Option.map_eq_some'] at hexec
      obtain ⟨v, hev, hr⟩ := hexec
      subst hr
      simp only [compile_stmt, Option.map_eq_some'] at hc
      obtain ⟨bcE, hce, hc⟩ := hc
      subst hc
      have extE : Extends bc bcE := compile_expr_extends e bc bcE hce
      have hreach1 := compile_expr_sim e bc bcE hce full
        (region_transfer (extends_emit bcE .bcPrint 0).1 (le_refl _) hreg)
        hconst env stack out v hev
      have hfetch : full.instructions[bcE.instructions.length]? =
          some ⟨.bcPrint, 0⟩ := by
        rw [hreg bcE.instructions.length extE.length_le (by rw [length_emit]; omega)]
        exact getElem?_emit_self _ _ _
      have hstep := vmStep_print (s := ⟨bcE.instructions.length, v :: stack, env, out⟩)
        hfetch rfl
      rw [length_emit]
      simpa using hreach1.trans (Reaches.single hstep)
  | fuel, .sexpr e, env, r, hexec, bc, bc', hc, full, hreg, hconst, stack, out => by
      simp only [compile_stmt] at hc
      cases e with
      | binary op el er =>
          cases el with
          | evar n =>
              rw [execStmt.eq_3] at hexec
              by_cases hop : op = "="
              · subst hop
                rw [if_pos rfl] at hexec
                simp only [Option.bind_eq_some] at hexec
                obtain ⟨v, hev, hexec⟩ := hexec
                rw [Option.map_eq_some'] at hexec
                obtain ⟨env1, hassign, hr⟩ := hexec
                subst hr
                have hc2 : (compile_expr er bc).map
                    (fun bc1 => emit bc1 OpCode.bcSetVar (varId n)) = some bc' := hc
                rw [Option.map_eq_some'] at hc2
                obtain ⟨bcE, hce, hc2⟩ := hc2
                subst hc2
                have extE : Extends bc bcE := compile_expr_extends er bc bcE hce
                have hreach1 := compile_expr_sim er bc bcE hce full
                  (region_transfer (extends_emit bcE .bcSetVar (varId n)).1 (le_refl _) hreg)
                  hconst env stack out v hev
                have hfetch : full.instructions[bcE.instructions.length]? =
                    some ⟨.bcSetVar, varId n⟩ := by
                  rw [hreg bcE.instructions.length extE.length_le (by rw [length_emit]; omega)]
                  exact getElem?_emit_self _ _ _
                have hassign1 : assign_var env (operandName (varId n)) v = some env1 := by
                  simpa [truncName] using hassign
                have hstep := vmStep_setVar
                  (s := ⟨bcE.instructions.length, v :: stack, env, out⟩) hfetch rfl hassign1
                rw [length_emit]
                simpa using hreach1.trans (Reaches.single hstep)
              · rw [if_neg hop] at hexec
                rw [Option.map_eq_some'] at hexec
                obtain ⟨v, hev, hr⟩ := hexec
                subst hr
                simpa using compile_expr_sim (.binary op (.evar n) er) bc bc' hc full hreg
                  hconst env stack out v hev
          | lit w =>
              rw [execStmt.eq_4 _ _ _ _ _ (fun name h => by cases h)] at hexec
              by_cases hop : op = "="
              · rw [if_pos hop] at hexec
                cases hexec
              · rw [if_neg hop] at hexec
                rw [Option.map_eq_some'] at hexec
                obtain ⟨v, hev, hr⟩ := hexec
                subst hr
                simpa using compile_expr_sim (.binary op (.lit w) er) bc bc' hc full hreg
                  hconst env stack out v hev
          | binary op2 l2 r2 =>
              rw [execStmt.eq_4 _ _ _ _ _ (fun name h => by cases h)] at hexec
              by_cases hop : op = "="
              · rw [if_pos hop] at hexec
                cases hexec
              · rw [if_neg hop] at hexec
                rw [Option.map_eq_some'] at hexec
                obtain ⟨v, hev, hr⟩ := hexec
                subst hr
                simpa using compile_expr_sim (.binary op (.binary op2 l2 r2) er) bc bc' hc full
                  hreg hconst env stack out v hev
          | call f as =>
              rw [execStmt.eq_4 _ _ _ _ _ (fun name h => by cases h)] at hexec
              by_cases hop : op = "="
              · rw [if_pos hop] at hexec
                cases hexec
              · rw [if_neg hop] at hexec
                rw [Option.map_eq_some'] at hexec
                obtain ⟨v, hev, hr⟩ := hexec
                subst hr
                simpa using compile_expr_sim (.binary op (.call f as) er) bc bc' hc full hreg
                  hconst env stack out v hev
      | lit w =>
          rw [execStmt.eq_5 _ _ _ (fun op l r h => by cases h)] at hexec
          rw [Option.map_eq_some'] at hexec
          obtain ⟨v, hev, hr⟩ := hexec
          subst hr
          simpa using compile_expr_sim (.lit w) bc bc' hc full hreg hconst env stack out v hev
      | evar n =>
          rw [execStmt.eq_5 _ _ _ (fun op l r h => by cases h)] at hexec
          rw [Option.map_eq_some'] at hexec
          obtain ⟨v, hev, hr⟩ := hexec
          subst hr
          simpa using compile_expr_sim (.evar n) bc bc' hc full hreg hconst env stack out v hev
      | call f as =>
          rw [execStmt.eq_5 _ _ _ (fun op l r h => by cases h)] at hexec
          rw [Option.map_eq_some'] at hexec
          obtain ⟨v, hev, hr⟩ := hexec
          subst hr
          simpa using compile_expr_sim (.call f as) bc bc' hc full hreg hconst env stack out v hev
  | fuel, .sif cond thenB elseB, env, r, hexec, bc, bc', hc, full, hreg, hconst, stack, out => by
      simp only [compile_stmt, Option.bind_eq_some] at hc
      obtain ⟨bc1, hc1, hc⟩ := hc
      obtain ⟨bc3, hc3, hc⟩ := hc
      have ext1 : Extends bc bc1 := compile_expr_extends cond bc bc1 hc1
      have hlen1 : bc.instructions.length ≤ bc1.instructions.length := ext1.length_le
      have ext23 : Extends (emit bc1 .bcJumpIfFalse 0) bc3 :=
        compile_stmt_extends thenB _ bc3 hc3
      have hlen2 : bc1.instructions.length + 1 ≤ bc3.instructions.length := by
        have := ext23.length_le
        rw [length_emit] at this
        omega
      cases elseB with
      | none =>
          simp only [execStmt, Option.bind_eq_some] at hexec
          obtain ⟨v, hev, hif⟩ := hexec
          cases hc
          -- bc1.count is the conditional jump site, patched to bc3.count
          have hjif3 : bc3.instructions[bc1.instructions.length]? =
              some ⟨.bcJumpIfFalse, 0⟩ := by
            rw [IsPrefix.getElem?_eq ext23.1 (by rw [length_emit]; omega)]
            exact getElem?_emit_self _ _ _
          have hfetchJ : full.instructions[bc1.instructions.length]? =
              some ⟨.bcJumpIfFalse, Int.ofNat bc3.instructions.length⟩ := by
            rw [hreg bc1.instructions.length ext1.length_le (by rw [length_patch]; omega)]
            exact getElem?_patch_self bc3 _ _ hjif3
          have ext1' : Extends bc1 (patchOperand bc3 bc1.instructions.length
              (Int.ofNat bc3.instructions.length)) :=
            extends_patch _ _ _ _ (le_refl _) ((extends_emit bc1 .bcJumpIfFalse 0).trans ext23)
          have hreachC := compile_expr_sim cond bc bc1 hc1 full
            (region_transfer ext1'.1 (le_refl _) hreg) (ext1'.2.trans hconst)
            env stack out v hev
          by_cases hv : v = 0
          · subst hv
            rw [if_pos rfl] at hif
            cases hif
            have hstep := vmStep_jif_false
              (s := ⟨bc1.instructions.length, 0 :: stack, env, out⟩) hfetchJ rfl
            rw [length_patch]
            simpa using hreachC.trans (Reaches.single hstep)
          · rw [if_neg hv] at hif
            have hstepJ := vmStep_jif_true
              (s := ⟨bc1.instructions.length, v :: stack, env, out⟩) hfetchJ rfl hv
            have hregT : ∀ i, (emit bc1 OpCode.bcJumpIfFalse 0).instructions.length ≤ i →
                i < bc3.instructions.length →
                full.instructions[i]? = bc3.instructions[i]? := by
              intro i hi1 hi2
              rw [length_emit] at hi1
              rw [hreg i (by omega) (by rw [length_patch]; omega)]
              exact getElem?_patch_ne _ _ _ (by omega)
            have hreachT := compile_stmt_sim fuel thenB env r hif
              (emit bc1 .bcJumpIfFalse 0) bc3 hc3 full hregT hconst stack out
            rw [length_emit] at hreachT
            rw [length_patch]
            exact (hreachC.trans (Reaches.single hstepJ)).trans hreachT
      | some els =>
          simp only [execStmt, Option.bind_eq_some] at hexec
          obtain ⟨v, hev, hif⟩ := hexec
          rw [Option.map_eq_some'] at hc
          obtain ⟨bc6, hc6, hc⟩ := hc
          subst hc
          -- abbreviations: bc4 = emit bc3 Jump 0, bc5 = bc4 patched at the cond jump
          have ext56 : Extends (patchOperand (emit bc3 .bcJump 0) bc1.instructions.length
              (Int.ofNat (emit bc3 .bcJump 0).instructions.length)) bc6 :=
            compile_stmt_extends els _ bc6 hc6
          have hlen56 : bc3.instructions.length + 1 ≤ bc6.instructions.length := by
            have := ext56.length_le
            rw [length_patch, length_emit] at this
            omega
          -- the conditional jump instruction in the finished program
          have hjif3 : bc3.instructions[bc1.instructions.length]? =
              some ⟨.bcJumpIfFalse, 0⟩ := by
            rw [IsPrefix.getElem?_eq ext23.1 (by rw [length_emit]; omega)]
            exact getElem?_emit_self _ _ _
          have hjif4 : (emit bc3 .bcJump 0).instructions[bc1.instructions.length]? =
              some ⟨.bcJumpIfFalse, 0⟩ := by
            rw [getElem?_emit_lt _ _ _ (by omega)]
            exact hjif3
          have hjif5 : (patchOperand (emit bc3 .bcJump 0) bc1.instructions.length
              (Int.ofNat (emit bc3 .bcJump 0).instructions.length)).instructions[bc1.instructions.length]? =
              some ⟨.bcJumpIfFalse, Int.ofNat (emit bc3 .bcJump 0).instructions.length⟩ :=
            getElem?_patch_self _ _ _ hjif4
          have hfetchJ : full.instructions[bc1.instructions.length]? =
              some ⟨.bcJumpIfFalse, Int.ofNat (emit bc3 .bcJump 0).instructions.length⟩ := by
            rw [hreg bc1.instructions.length ext1.length_le
              (by rw [length_patch]; omega)]
            rw [getElem?_patch_ne _ _ _ (by omega)]
            rw [IsPrefix.getElem?_eq ext56.1 (by rw [length_patch, length_emit]; omega)]
            exact hjif5
          -- the unconditional jump over the else branch
          have hjump6 : bc6.instructions[bc3.instructions.length]? =
              some ⟨.bcJump, 0⟩ := by
            rw [IsPrefix.getElem?_eq ext56.1 (by rw [length_patch, length_emit]; omega)]
            rw [getElem?_patch_ne _ _ _ (by omega)]
            exact getElem?_emit_self _ _ _
          have hfetchJump : full.instructions[bc3.instructions.length]? =
              some ⟨.bcJump, Int.ofNat bc6.instructions.length⟩ := by
            rw [hreg bc3.instructions.length (le_trans ext1.length_le (by omega))
              (by rw [length_patch]; omega)]
            exact getElem?_patch_self bc6 _ _ hjump6
          have ext1' : Extends bc1 (patchOperand bc6 bc3.instructions.length
              (Int.ofNat bc6.instructions.length)) := by
            apply extends_patch _ _ _ _ (by omega)
            refine Extends.trans ?_ ext56
            apply extends_patch _ _ _ _ (le_refl _)
            exact ((extends_emit bc1 .bcJumpIfFalse 0).trans ext23).trans
              (extends_emit bc3 .bcJump 0)
          have hreachC := compile_expr_sim cond bc bc1 hc1 full
            (region_transfer ext1'.1 (le_refl _) hreg) (ext1'.2.trans hconst)
            env stack out v hev
          by_cases hv : v = 0
          · subst hv
            rw [if_pos rfl] at hif
            have hstepJ := vmStep_jif_false
              (s := ⟨bc1.instructions.length, 0 :: stack, env, out⟩) hfetchJ rfl
            have hregE : ∀ i, (patchOperand (emit bc3 .bcJump 0) bc1.instructions.length
                (Int.ofNat (emit bc3 .bcJump 0).instructions.length)).instructions.length ≤ i →
                i < bc6.instructions.length →
                full.instructions[i]? = bc6.instructions[i]? := by
              intro i hi1 hi2
              rw [length_patch, length_emit] at hi1
              rw [hreg i (by omega) (by rw [length_patch]; omega)]
              exact getElem?_patch_ne _ _ _ (by omega)
            have hreachE := compile_stmt_sim fuel els env r hif
              (patchOperand (emit bc3 .bcJump 0) bc1.instructions.length
                (Int.ofNat (emit bc3 .bcJump 0).instructions.length)) bc6 hc6 full
              hregE hconst stack out
            rw [length_patch, length_emit] at hreachE
            rw [length_patch]
            exact (hreachC.trans (Reaches.single hstepJ)).trans
              (by simpa [length_emit] using hreachE)
          · rw [if_neg hv] at hif
            have hstepJ := vmStep_jif_true
              (s := ⟨bc1.instructions.length, v :: stack, env, out⟩) hfetchJ rfl hv
            have hregT : ∀ i, (emit bc1 OpCode.bcJumpIfFalse 0).instructions.length ≤ i →
                i < bc3.instructions.length →
                full.instructions[i]? = bc3.instructions[i]? := by
              intro i hi1 hi2
              rw [length_emit] at hi1
              rw [hreg i (by omega) (by rw [length_patch]; omega)]
              rw [getElem?_patch_ne _ _ _ (by omega)]
              rw [IsPrefix.getElem?_eq ext56.1 (by rw [length_patch, length_emit]; omega)]
              rw [getElem?_patch_ne _ _ _ (by omega)]
              exact getElem?_emit_lt _ _ _ hi2
            have hconstT : bc3.constants <+: full.constants := by
              have h56 : bc3.constants <+: bc6.constants := ext56.2
              exact h56.trans hconst
            have hreachT := compile_stmt_sim fuel thenB env r hif
              (emit bc1 .bcJumpIfFalse 0) bc3 hc3 full hregT hconstT stack out
            rw [length_emit] at hreachT
            have hstepJump := vmStep_jump
              (s := ⟨bc3.instructions.length, r.2.2 ++ stack, r.1, out ++ r.2.1⟩) hfetchJump
            rw [length_patch]
            exact ((hreachC.trans (Reaches.single hstepJ)).trans hreachT).trans
              (Reaches.single hstepJump)
  | 0, .swhile cond body, env, r, hexec, bc, bc', hc, full, hreg, hconst, stack, out => by
      simp only [execStmt] at hexec
      exact Option.noConfusion hexec
  | fuel + 1, .swhile cond body, env, r, hexec, bc, bc', hc, full, hreg, hconst, stack, out => by
      simp only [compile_stmt, Option.bind_eq_some] at hc
      obtain ⟨bc1, hc1, hc⟩ := hc
      rw [Option.map_eq_some'] at hc
      obtain ⟨bc3, hc3, hc⟩ := hc
      have hcW : compile_stmt (.swhile cond body) bc = some bc' := by
        simp only [compile_stmt, hc1, Option.some_bind, hc3, Option.map_some']
        rw [hc]
      subst hc
      simp only [execStmt, Option.bind_eq_some] at hexec
      obtain ⟨v, hev, hif⟩ := hexec
      have ext1 : Extends bc bc1 := compile_expr_extends cond bc bc1 hc1
      have hlen1 : bc.instructions.length ≤ bc1.instructions.length := ext1.length_le
      have ext23 : Extends (emit bc1 .bcJumpIfFalse 0) bc3 :=
        compile_stmt_extends body _ bc3 hc3
      have hlen2 : bc1.instructions.length + 1 ≤ bc3.instructions.length := by
        have := ext23.length_le
        rw [length_emit] at this
        omega
      have hjif3 : bc3.instructions[bc1.instructions.length]? =
          some ⟨.bcJumpIfFalse, 0⟩ := by
        rw [IsPrefix.getElem?_eq ext23.1 (by rw [length_emit]; omega)]
        exact getElem?_emit_self _ _ _
      have hjif4 : (emit bc3 .bcJump (Int.ofNat bc.instructions.length)).instructions[bc1.instructions.length]? =
          some ⟨.bcJumpIfFalse, 0⟩ := by
        rw [getElem?_emit_lt _ _ _ (by omega)]
        exact hjif3
      have hfetchJ : full.instructions[bc1.instructions.length]? =
          some ⟨.bcJumpIfFalse,
            Int.ofNat (emit bc3 .bcJump (Int.ofNat bc.instructions.length)).instructions.length⟩ := by
        rw [hreg bc1.instructions.length ext1.length_le (by rw [length_patch, length_emit]; omega)]
        exact getElem?_patch_self _ _ _ hjif4
      have hfetchJump : full.instructions[bc3.instructions.length]? =
          some ⟨.bcJump, Int.ofNat bc.instructions.length⟩ := by
        rw [hreg bc3.instructions.length (le_trans ext1.length_le (by omega))
          (by rw [length_patch, length_emit]; omega)]
        rw [getElem?_patch_ne _ _ _ (by omega)]
        exact getElem?_emit_self _ _ _
      have ext1' : Extends bc1 (patchOperand (emit bc3 .bcJump (Int.ofNat bc.instructions.length))
          bc1.instructions.length
          (Int.ofNat (emit bc3 .bcJump (Int.ofNat bc.instructions.length)).instructions.length)) := by
        apply extends_patch _ _ _ _ (le_refl _)
        exact ((extends_emit bc1 .bcJumpIfFalse 0).trans ext23).trans (extends_emit bc3 .bcJump _)
      have hreachC := compile_expr_sim cond bc bc1 hc1 full
        (region_transfer ext1'.1 (le_refl _) hreg) (ext1'.2.trans hconst)
        env stack out v hev
      by_cases hv : v = 0
      · subst hv
        rw [if_pos rfl] at hif
        cases hif
        have hstepJ := vmStep_jif_false
          (s := ⟨bc1.instructions.length, 0 :: stack, env, out⟩) hfetchJ rfl
        rw [length_patch]
        simpa using hreachC.trans (Reaches.single hstepJ)
      · rw [if_neg hv] at hif
        rw [Option.bind_eq_some] at hif
        obtain ⟨r1, hbody, hif⟩ := hif
        rw [Option.map_eq_some'] at hif
        obtain ⟨r2, hself, hr⟩ := hif
        subst hr
        have hstepJ := vmStep_jif_true
          (s := ⟨bc1.instructions.length, v :: stack, env, out⟩) hfetchJ rfl hv
        have hregB : ∀ i, (emit bc1 OpCode.bcJumpIfFalse 0).instructions.length ≤ i →
            i < bc3.instructions.length →
            full.instructions[i]? = bc3.instructions[i]? := by
          intro i hi1 hi2
          rw [length_emit] at hi1
          rw [hreg i (by omega) (by rw [length_patch, length_emit]; omega)]
          rw [getElem?_patch_ne _ _ _ (by omega)]
          exact getElem?_emit_lt _ _ _ hi2
        have hreachB := compile_stmt_sim (fuel + 1) body env r1 hbody
          (emit bc1 .bcJumpIfFalse 0) bc3 hc3 full hregB hconst stack out
        rw [length_emit] at hreachB
        have hstepJump := vmStep_jump
          (s := ⟨bc3.instructions.length, r1.2.2 ++ stack, r1.1, out ++ r1.2.1⟩) hfetchJump
        have hreachW := compile_stmt_sim fuel (.swhile cond body) r1.1 r2 hself
          bc _ hcW full hreg hconst (r1.2.2 ++ stack) (out ++ r1.2.1)
        have hfinal := (((hreachC.trans (Reaches.single hstepJ)).trans hreachB).trans
          (Reaches.single hstepJump)).trans hreachW
        simpa [List.append_assoc] using hfinal
  | fuel, .block ss, env, r, hexec, bc, bc', hc, full, hreg, hconst, stack, out => by
      simp only [execStmt] at hexec
      simp only [compile_stmt] at hc
      exact compile_stmt_list_sim fuel ss env r hexec bc bc' hc full hreg hconst stack out

/-- Statement-list counterpart of `compile_stmt_sim`. -/
theorem compile_stmt_list_sim :
    ∀ (fuel : Nat) (ss : List Stmt) (env : Env) (r : Env × List Int × List Int),
      execStmtList fuel env ss = some r →
    ∀ (bc bc' : Bytecode), compile_stmt_list ss bc = some bc' →
    ∀ (full : Bytecode),
      (∀ i, bc.instructions.length ≤ i → i < bc'.instructions.length →
        full.instructions[i]? = bc'.instructions[i]?) →
      bc'.constants <+: full.constants →
    ∀ (stack out : List Int),
      Reaches full ⟨bc.instructions.length, stack, env, out⟩
        ⟨bc'.instructions.length, r.2.2 ++ stack, r.1, out ++ r.2.1⟩
  | fuel, [], env, r, hexec, bc, bc', hc, full, hreg, hconst, stack, out => by
      simp only [execStmtList] at hexec
      cases hexec
      simp only [compile_stmt_list] at hc
      cases hc
      simpa using Reaches.refl full ⟨bc.instructions.length, stack, env, out⟩
  | fuel, st :: rest, env, r, hexec, bc, bc', hc, full, hreg, hconst, stack, out => by
      simp only [execStmtList, Option.bind_eq_some] at hexec
      obtain ⟨r1, h1, hexec⟩ := hexec
      rw [Option.map_eq_some'] at hexec
      obtain ⟨r2, h2, hr⟩ := hexec
      subst hr
      simp only [compile_stmt_list, Option.bind_eq_some] at hc
      obtain ⟨bc1, hcs, hcl⟩ := hc
      have ext1 : Extends bc bc1 := compile_stmt_extends st bc bc1 hcs
      have ext2 : Extends bc1 bc' := compile_stmt_list_extends rest bc1 bc' hcl
      have hreach1 := compile_stmt_sim fuel st env r1 h1 bc bc1 hcs full
        (region_transfer ext2.1 (le_refl _) hreg) (ext2.2.trans hconst) stack out
      have hreach2 := compile_stmt_list_sim fuel rest r1.1 r2 h2 bc1 bc' hcl full
        (fun i hi1 hi2 => hreg i (le_trans ext1.length_le hi1) hi2) hconst
        (r1.2.2 ++ stack) (out ++ r1.2.1)
      simpa [List.append_assoc] using hreach1.trans hreach2

end

end JMinus

namespace JMinus

theorem lt_length_of_getElem? {α : Type} {l : List α} {i : Nat} {x : α}
    (h : l[i]? = some x) : i < l.length := by
  by_contra hh
  rw [List.getElem?_eq_none (by omega)] at h
  cases h

theorem getElem?_emit_ge (bc : Bytecode) (opc : OpCode) (w : Int) {i : Nat}
    (h : bc.instructions.length ≤ i) :
    (emit bc opc w).instructions[i]? =
      if i = bc.instructions.length then some ⟨opc, w⟩ else none := by
  rcases eq_or_lt_of_le h with heq | hlt
  · rw [if_pos heq.symm, ← heq]
    exact List.getElem?_concat_length _ _
  · rw [if_neg (by omega)]
    apply List.getElem?_eq_none
    rw [length_emit]
    omega

/-- A `next` dispatch either falls through to `ip + 1` or jumps to the
(nonnegative) operand of a jump instruction; the fetched instruction is
never `BC_HALT`. -/
theorem vmStep_next_ip {bc : Bytecode} {s t : VMState} (h : vmStep bc s = .next t) :
    ∃ instr, bc.instructions[s.ip]? = some instr ∧ instr.opcode ≠ .bcHalt ∧
      (t.ip = s.ip + 1 ∨
        ((instr.opcode = .bcJump ∨ instr.opcode = .bcJumpIfFalse) ∧
          0 ≤ instr.operand ∧ t.ip = instr.operand.toNat)) := by
  cases hfetch : bc.instructions[s.ip]? with
  | none => simp [vmStep, hfetch] at h
  | some instr =>
      cases instr with
      | mk opc w =>
          refine ⟨⟨opc, w⟩, rfl, ?_⟩
          cases opc <;> simp only [vmStep, hfetch, binStep] at h
          case bcConst =>
              refine ⟨fun hx => OpCode.noConfusion hx, ?_⟩
              split at h
              · cases h
              · cases h; exact Or.inl rfl
          case bcAdd =>
              refine ⟨fun hx => OpCode.noConfusion hx, ?_⟩
              split at h
              · cases h; exact Or.inl rfl
              · cases h
          case bcSub =>
              refine ⟨fun hx => OpCode.noConfusion hx, ?_⟩
              split at h
              · cases h; exact Or.inl rfl
              · cases h
          case bcMul =>
              refine ⟨fun hx => OpCode.noConfusion hx, ?_⟩
              split at h
              · cases h; exact Or.inl rfl
              · cases h
          case bcDiv =>
              refine ⟨fun hx => OpCode.noConfusion hx, ?_⟩
              split at h
              · split at h
                · cases h
                · cases h; exact Or.inl rfl
              · cases h
          case bcEqual =>
              refine ⟨fun hx => OpCode.noConfusion hx, ?_⟩
              split at h
              · cases h; exact Or.inl rfl
              · cases h
          case bcNotEqual =>
              refine ⟨fun hx => OpCode.noConfusion hx, ?_⟩
              split at h
              · cases h; exact Or.inl rfl
              · cases h
          case bcLess =>
              refine ⟨fun hx => OpCode.noConfusion hx, ?_⟩
              split at h
              · cases h; exact Or.inl rfl
              · cases h
          case bcLessEqual =>
              refine ⟨fun hx => OpCode.noConfusion hx, ?_⟩
              split at h
              · cases h; exact Or.inl rfl
              · cases h
          case bcGreater =>
              refine ⟨fun hx => OpCode.noConfusion hx, ?_⟩
              split at h
              · cases h; exact Or.inl rfl
              · cases h
          case bcGreaterEqual =>
              refine ⟨fun hx => OpCode.noConfusion hx, ?_⟩
              split at h
              · cases h; exact Or.inl rfl
              · cases h
          case bcLoadVar =>
              refine ⟨fun hx => OpCode.noConfusion hx, ?_⟩
              split at h
              · cases h
              · cases h; exact Or.inl rfl
          case bcSetVar =>
              refine ⟨fun hx => OpCode.noConfusion hx, ?_⟩
              split at h
              · split at h
                · cases h
                · cases h; exact Or.inl rfl
              · cases h
          case bcDefineVar =>
              refine ⟨fun hx => OpCode.noConfusion hx, ?_⟩
              split at h
              · cases h; exact Or.inl rfl
              · cases h
          case bcPrint =>
              refine ⟨fun hx => OpCode.noConfusion hx, ?_⟩
              split at h
              · cases h; exact Or.inl rfl
              · cases h
          case bcJumpIfFalse =>
              refine ⟨fun hx => OpCode.noConfusion hx, ?_⟩
              split at h
              · split at h
                · split at h
                  · cases h
                  · cases h
                    exact Or.inr ⟨Or.inr rfl, (by omega : (0:Int) ≤ w), rfl⟩
                · cases h; exact Or.inl rfl
              · cases h
          case bcJump =>
              refine ⟨fun hx => OpCode.noConfusion hx, ?_⟩
              split at h
              · cases h
              · cases h
                exact Or.inr ⟨Or.inl rfl, (by omega : (0:Int) ≤ w), rfl⟩
          case bcStoreVar => cases h
          case bcLoadConst => cases h
          case bcLoop => cases h
          case bcPop => cases h
          case bcHalt => cases h

end JMinus

namespace JMinus

theorem binOpCode_ops {op : String} {opc : OpCode} (h : binOpCode op = some opc) :
    opc ≠ .bcJump ∧ opc ≠ .bcJumpIfFalse := by
  unfold binOpCode at h
  split_ifs at h <;> cases h <;> exact ⟨fun hx => OpCode.noConfusion hx,
    fun hx => OpCode.noConfusion hx⟩

/-- Expression code contains no jump instructions at all. -/
theorem compile_expr_region_ops :
    ∀ (e : Expr) (bc bc' : Bytecode), compile_expr e bc = some bc' →
    ∀ i instr, bc.instructions.length ≤ i → bc'.instructions[i]? = some instr →
      instr.opcode ≠ .bcJump ∧ instr.opcode ≠ .bcJumpIfFalse
  | .lit v, bc, bc', hc, i, instr, hi, hget => by
      simp only [compile_expr] at hc
      cases hc
      rw [getElem?_emit_ge (add_constant bc v).1 _ _ hi] at hget
      split at hget
      · cases hget
        exact ⟨fun hx => OpCode.noConfusion hx, fun hx => OpCode.noConfusion hx⟩
      · cases hget
  | .evar n, bc, bc', hc, i, instr, hi, hget => by
      simp only [compile_expr] at hc
      cases hc
      rw [getElem?_emit_ge _ _ _ hi] at hget
      split at hget
      · cases hget
        exact ⟨fun hx => OpCode.noConfusion hx, fun hx => OpCode.noConfusion hx⟩
      · cases hget
  | .binary op l r, bc, bc', hc, i, instr, hi, hget => by
      simp only [compile_expr] at hc
      split at hc
      · split at hc
        · rename_i n
          rw [Option.map_eq_some'] at hc
          obtain ⟨bc1, h1, hc⟩ := hc
          subst hc
          rcases Nat.lt_or_ge i bc1.instructions.length with hlt | hge
          · rw [getElem?_emit_lt _ _ _ hlt] at hget
            exact compile_expr_region_ops r bc bc1 h1 i instr hi hget
          · rw [getElem?_emit_ge _ _ _ hge] at hget
            split at hget
            · cases hget
              exact ⟨fun hx => OpCode.noConfusion hx, fun hx => OpCode.noConfusion hx⟩
            · cases hget
        · cases hc
      · rw [Option.bind_eq_some] at hc
        obtain ⟨bc1, h1, hc⟩ := hc
        rw [Option.bind_eq_some] at hc
        obtain ⟨bc2, h2, hc⟩ := hc
        rw [Option.map_eq_some'] at hc
        obtain ⟨opc, hopc, hc⟩ := hc
        subst hc
        rcases Nat.lt_or_ge i bc1.instructions.length with hlt1 | hge1
        · rw [getElem?_emit_lt _ _ _ (lt_of_lt_of_le hlt1
            (compile_expr_extends r bc1 bc2 h2).length_le)] at hget
          rw [IsPrefix.getElem?_eq (compile_expr_extends r bc1 bc2 h2).1 hlt1] at hget
          exact compile_expr_region_ops l bc bc1 h1 i instr hi hget
        · rcases Nat.lt_or_ge i bc2.instructions.length with hlt2 | hge2
          · rw [getElem?_emit_lt _ _ _ hlt2] at hget
            exact compile_expr_region_ops r bc1 bc2 h2 i instr hge1 hget
          · rw [getElem?_emit_ge _ _ _ hge2] at hget
            split at hget
            · cases hget
              exact binOpCode_ops hopc
            · cases hget
  | .call f args, bc, bc', hc, i, instr, hi, hget => by
      simp only [compile_expr] at hc
      cases hc

end JMinus

namespace JMinus

theorem ops_to_jumps {instr : Instruction} (n i : Nat)
    (h : instr.opcode ≠ .bcJump ∧ instr.opcode ≠ .bcJumpIfFalse) :
    ((instr.opcode = .bcJump ∨ instr.opcode = .bcJumpIfFalse) →
      0 ≤ instr.operand ∧ instr.operand.toNat ≤ n) ∧
    (instr.opcode = .bcJumpIfFalse → i < instr.operand.toNat) :=
  ⟨fun hj => (hj.elim (fun h1 => absurd h1 h.1) (fun h2 => absurd h2 h.2)),
   fun hjf => absurd hjf h.2⟩

theorem jumps_mono {instr : Instruction} {i n m : Nat} (hnm : n ≤ m)
    (h : ((instr.opcode = .bcJump ∨ instr.opcode = .bcJumpIfFalse) →
        0 ≤ instr.operand ∧ instr.operand.toNat ≤ n) ∧
      (instr.opcode = .bcJumpIfFalse → i < instr.operand.toNat)) :
    ((instr.opcode = .bcJump ∨ instr.opcode = .bcJumpIfFalse) →
      0 ≤ instr.operand ∧ instr.operand.toNat ≤ m) ∧
    (instr.opcode = .bcJumpIfFalse → i < instr.operand.toNat) :=
  ⟨fun hj => ⟨(h.1 hj).1, le_trans (h.1 hj).2 hnm⟩, h.2⟩

mutual

/-- Every jump operand the compilation of one statement leaves in the
region it added is nonnegative and at most the length of the bytecode so
far, and every conditional jump is patched to a strictly forward target. -/
theorem compile_stmt_region_jumps :
    ∀ (st : Stmt) (bc bc' : Bytecode), compile_stmt st bc = some bc' →
    ∀ i instr, bc.instructions.length ≤ i → bc'.instructions[i]? = some instr →
      ((instr.opcode = .bcJump ∨ instr.opcode = .bcJumpIfFalse) →
        0 ≤ instr.operand ∧ instr.operand.toNat ≤ bc'.instructions.length) ∧
      (instr.opcode = .bcJumpIfFalse → i < instr.operand.toNat)
  | .slet n e, bc, bc', hc, i, instr, hi, hget => by
      simp only [compile_stmt, Option.map_eq_some'] at hc
      obtain ⟨bcE, hce, hc⟩ := hc
      subst hc
      rcases Nat.lt_or_ge i bcE.instructions.length with hlt | hge
      · rw [getElem?_emit_lt _ _ _ hlt] at hget
        exact ops_to_jumps _ _ (compile_expr_region_ops e bc bcE hce i instr hi hget)
      · rw [getElem?_emit_ge _ _ _ hge] at hget
        split at hget
        · cases hget
          exact ops_to_jumps _ _ ⟨fun hx => OpCode.noConfusion hx,
            fun hx => OpCode.noConfusion hx⟩
        · cases hget
  | .yap e, bc, bc', hc, i, instr, hi, hget => by
      simp only [compile_stmt, Option.map_eq_some'] at hc
      obtain ⟨bcE, hce, hc⟩ := hc
      subst hc
      rcases Nat.lt_or_ge i bcE.instructions.length with hlt | hge
      · rw [getElem?_emit_lt _ _ _ hlt] at hget
        exact ops_to_jumps _ _ (compile_expr_region_ops e bc bcE hce i instr hi hget)
      · rw [getElem?_emit_ge _ _ _ hge] at hget
        split at hget
        · cases hget
          exact ops_to_jumps _ _ ⟨fun hx => OpCode.noConfusion hx,
            fun hx => OpCode.noConfusion hx⟩
        · cases hget
  | .sexpr e, bc, bc', hc, i, instr, hi, hget => by
      simp only [compile_stmt] at hc
      exact ops_to_jumps _ _ (compile_expr_region_ops e bc bc' hc i instr hi hget)
  | .sif cond thenB elseB, bc, bc', hc, i, instr, hi, hget => by
      simp only [compile_stmt, Option.bind_eq_some] at hc
      obtain ⟨bc1, hc1, hc⟩ := hc
      obtain ⟨bc3, hc3, hc⟩ := hc
      have ext1 : Extends bc bc1 := compile_expr_extends cond bc bc1 hc1
      have hlen1 : bc.instructions.length ≤ bc1.instructions.length := ext1.length_le
      have ext23 : Extends (emit bc1 .bcJumpIfFalse 0) bc3 :=
        compile_stmt_extends thenB _ bc3 hc3
      have hlen2 : bc1.instructions.length + 1 ≤ bc3.instructions.length := by
        have := ext23.length_le
        rw [length_emit] at this
        omega
      have hjif3 : bc3.instructions[bc1.instructions.length]? =
          some ⟨.bcJumpIfFalse, 0⟩ := by
        rw [IsPrefix.getElem?_eq ext23.1 (by rw [length_emit]; omega)]
        exact getElem?_emit_self _ _ _
      cases elseB with
      | none =>
          cases hc
          by_cases hip : i = bc1.instructions.length
          · subst hip
            rw [getElem?_patch_self bc3 _ _ hjif3] at hget
            cases hget
            refine ⟨fun hj => ⟨by exact Int.natCast_nonneg _, ?_⟩, fun hjf => ?_⟩
            · rw [length_patch]
              simp [Int.ofNat_eq_natCast, Int.toNat_natCast]
            · simp [Int.ofNat_eq_natCast, Int.toNat_natCast]
              omega
          · rw [getElem?_patch_ne _ _ _ (fun hx => hip hx.symm)] at hget
            rcases Nat.lt_or_ge i (bc1.instructions.length + 1) with hlt | hge
            · have hlt1 : i < bc1.instructions.length := by omega
              rw [IsPrefix.getElem?_eq ((extends_emit bc1 .bcJumpIfFalse 0).trans ext23).1
                (by omega)] at hget
              exact ops_to_jumps _ _ (compile_expr_region_ops cond bc bc1 hc1 i instr hi hget)
            · have := compile_stmt_region_jumps thenB (emit bc1 .bcJumpIfFalse 0) bc3 hc3
                i instr (by rw [length_emit]; omega) hget
              rw [length_patch]
              exact this
      | some els =>
          rw [Option.map_eq_some'] at hc
          obtain ⟨bc6, hc6, hc⟩ := hc
          subst hc
          have ext56 : Extends (patchOperand (emit bc3 .bcJump 0) bc1.instructions.length
              (Int.ofNat (emit bc3 .bcJump 0).instructions.length)) bc6 :=
            compile_stmt_extends els _ bc6 hc6
          have hlen56 : bc3.instructions.length + 1 ≤ bc6.instructions.length := by
            have := ext56.length_le
            rw [length_patch, length_emit] at this
            omega
          by_cases hip : i = bc1.instructions.length
          · subst hip
            have hjif4 : (emit bc3 .bcJump 0).instructions[bc1.instructions.length]? =
                some ⟨.bcJumpIfFalse, 0⟩ := by
              rw [getElem?_emit_lt _ _ _ (by omega)]
              exact hjif3
            have hjif6 : bc6.instructions[bc1.instructions.length]? =
                some ⟨.bcJumpIfFalse, Int.ofNat (emit bc3 .bcJump 0).instructions.length⟩ := by
              rw [IsPrefix.getElem?_eq ext56.1 (by rw [length_patch, length_emit]; omega)]
              exact getElem?_patch_self _ _ _ hjif4
            rw [getElem?_patch_ne _ _ _ (by omega)] at hget
            rw [hjif6] at hget
            cases hget
            refine ⟨fun hj => ⟨by exact Int.natCast_nonneg _, ?_⟩, fun hjf => ?_⟩
            · rw [length_patch]
              simp only [Int.ofNat_eq_natCast, Int.toNat_natCast, length_emit]
              omega
            · simp only [Int.ofNat_eq_natCast, Int.toNat_natCast, length_emit]
              omega
          · by_cases hip3 : i = bc3.instructions.length
            · subst hip3
              have hjump4 : (emit bc3 .bcJump 0).instructions[bc3.instructions.length]? =
                  some ⟨.bcJump, 0⟩ := getElem?_emit_self _ _ _
              have hjump6 : bc6.instructions[bc3.instructions.length]? =
                  some ⟨.bcJump, 0⟩ := by
                rw [IsPrefix.getElem?_eq ext56.1 (by rw [length_patch, length_emit]; omega)]
                rw [getElem?_patch_ne _ _ _ (by omega)]
                exact hjump4
              rw [getElem?_patch_self bc6 _ _ hjump6] at hget
              cases hget
              refine ⟨fun hj => ⟨by exact Int.natCast_nonneg _, ?_⟩, fun hjf => OpCode.noConfusion hjf⟩
              rw [length_patch]
              simp [Int.ofNat_eq_natCast, Int.toNat_natCast]
            · rw [getElem?_patch_ne _ _ _ (fun hx => hip3 hx.symm)] at hget
              rcases Nat.lt_or_ge i bc1.instructions.length with hlt1 | hge1
              · rw [IsPrefix.getElem?_eq ext56.1 (by rw [length_patch, length_emit]; omega)]
                  at hget
                rw [getElem?_patch_ne _ _ _ (by omega)] at hget
                rw [getElem?_emit_lt _ _ _ (by omega)] at hget
                rw [IsPrefix.getElem?_eq ((extends_emit bc1 .bcJumpIfFalse 0).trans ext23).1
                  (by omega)] at hget
                exact ops_to_jumps _ _ (compile_expr_region_ops cond bc bc1 hc1 i instr hi hget)
              · rcases Nat.lt_or_ge i bc3.instructions.length with hlt3 | hge3
                · have hge1' : bc1.instructions.length + 1 ≤ i := by omega
                  rw [IsPrefix.getElem?_eq ext56.1 (by rw [length_patch, length_emit]; omega)]
                    at hget
                  rw [getElem?_patch_ne _ _ _ (by omega)] at hget
                  rw [getElem?_emit_lt _ _ _ (by omega)] at hget
                  have := compile_stmt_region_jumps thenB (emit bc1 .bcJumpIfFalse 0) bc3 hc3
                    i instr (by rw [length_emit]; omega) hget
                  rw [length_patch]
                  exact jumps_mono (by omega) this
                · have hge4 : (emit bc3 .bcJump 0).instructions.length ≤ i := by
                    rw [length_emit]; omega
                  have := compile_stmt_region_jumps els _ bc6 hc6 i instr
                    (by rw [length_patch]; exact hge4) hget
                  rw [length_patch]
                  exact this
  | .swhile cond body, bc, bc', hc, i, instr, hi, hget => by
      simp only [compile_stmt, Option.bind_eq_some] at hc
      obtain ⟨bc1, hc1, hc⟩ := hc
      rw [Option.map_eq_some'] at hc
      obtain ⟨bc3, hc3, hc⟩ := hc
      subst hc
      have ext1 : Extends bc bc1 := compile_expr_extends cond bc bc1 hc1
      have hlen1 : bc.instructions.length ≤ bc1.instructions.length := ext1.length_le
      have ext23 : Extends (emit bc1 .bcJumpIfFalse 0) bc3 :=
        compile_stmt_extends body _ bc3 hc3
      have hlen2 : bc1.instructions.length + 1 ≤ bc3.instructions.length := by
        have := ext23.length_le
        rw [length_emit] at this
        omega
      have hjif3 : bc3.instructions[bc1.instructions.length]? =
          some ⟨.bcJumpIfFalse, 0⟩ := by
        rw [IsPrefix.getElem?_eq ext23.1 (by rw [length_emit]; omega)]
        exact getElem?_emit_self _ _ _
      by_cases hip : i = bc1.instructions.length
      · subst hip
        have hjif4 : (emit bc3 .bcJump
            (Int.ofNat bc.instructions.length)).instructions[bc1.instructions.length]? =
            some ⟨.bcJumpIfFalse, 0⟩ := by
          rw [getElem?_emit_lt _ _ _ (by omega)]
          exact hjif3
        rw [getElem?_patch_self _ _ _ hjif4] at hget
        cases hget
        refine ⟨fun hj => ⟨by exact Int.natCast_nonneg _, ?_⟩, fun hjf => ?_⟩
        · rw [length_patch]
          simp [Int.ofNat_eq_natCast, Int.toNat_natCast]
        · simp only [Int.ofNat_eq_natCast, Int.toNat_natCast, length_emit]
          omega
      · rw [getElem?_patch_ne _ _ _ (fun hx => hip hx.symm)] at hget
        by_cases hip3 : i = bc3.instructions.length
        · subst hip3
          rw [getElem?_emit_self] at hget
          cases hget
          refine ⟨fun hj => ⟨by exact Int.natCast_nonneg _, ?_⟩, fun hjf => OpCode.noConfusion hjf⟩
          rw [length_patch, length_emit]
          simp only [Int.ofNat_eq_natCast, Int.toNat_natCast]
          omega
        · rcases Nat.lt_or_ge i bc1.instructions.length with hlt1 | hge1
          · rw [getElem?_emit_lt _ _ _ (by omega)] at hget
            rw [IsPrefix.getElem?_eq ((extends_emit bc1 .bcJumpIfFalse 0).trans ext23).1
              (by omega)] at hget
            exact ops_to_jumps _ _ (compile_expr_region_ops cond bc bc1 hc1 i instr hi hget)
          · rcases Nat.lt_or_ge i bc3.instructions.length with hlt3 | hge3
            · rw [getElem?_emit_lt _ _ _ (by omega)] at hget
              have := compile_stmt_region_jumps body (emit bc1 .bcJumpIfFalse 0) bc3 hc3
                i instr (by rw [length_emit]; omega) hget
              rw [length_patch, length_emit]
              exact jumps_mono (by omega) this
            · rw [getElem?_emit_ge bc3 _ _ hge3] at hget
              split at hget
              · omega
              · cases hget
  | .block ss, bc, bc', hc, i, instr, hi, hget => by
      simp only [compile_stmt] at hc
      exact compile_stmt_list_region_jumps ss bc bc' hc i instr hi hget

theorem compile_stmt_list_region_jumps :
    ∀ (ss : List Stmt) (bc bc' : Bytecode), compile_stmt_list ss bc = some bc' →
    ∀ i instr, bc.instructions.length ≤ i → bc'.instructions[i]? = some instr →
      ((instr.opcode = .bcJump ∨ instr.opcode = .bcJumpIfFalse) →
        0 ≤ instr.operand ∧ instr.operand.toNat ≤ bc'.instructions.length) ∧
      (instr.opcode = .bcJumpIfFalse → i < instr.operand.toNat)
  | [], bc, bc', hc, i, instr, hi, hget => by
      simp only [compile_stmt_list] at hc
      cases hc
      have := lt_length_of_getElem? hget
      omega
  | st :: rest, bc, bc', hc, i, instr, hi, hget => by
      simp only [compile_stmt_list, Option.bind_eq_some] at hc
      obtain ⟨bc1, hcs, hcl⟩ := hc
      have ext1 : Extends bc bc1 := compile_stmt_extends st bc bc1 hcs
      have ext2 : Extends bc1 bc' := compile_stmt_list_extends rest bc1 bc' hcl
      rcases Nat.lt_or_ge i bc1.instructions.length with hlt | hge
      · rw [IsPrefix.getElem?_eq ext2.1 hlt] at hget
        exact jumps_mono ext2.length_le
          (compile_stmt_region_jumps st bc bc1 hcs i instr hi hget)
      · exact compile_stmt_list_region_jumps rest bc1 bc' hcl i instr hge hget

end

end JMinus

namespace JMinus

/-- In a finished compiled program every jump operand is a valid strict
index, and every conditional jump points strictly forward. -/
theorem compile_jumps {ss : List Stmt} {bc : Bytecode} (h : compile ss = some bc) :
    ∀ (i : Nat) (instr : Instruction), bc.instructions[i]? = some instr →
      ((instr.opcode = .bcJump ∨ instr.opcode = .bcJumpIfFalse) →
        0 ≤ instr.operand ∧ instr.operand.toNat < bc.instructions.length) ∧
      (instr.opcode = .bcJumpIfFalse → i < instr.operand.toNat) := by
  rw [compile, Option.map_eq_some'] at h
  obtain ⟨bcPre, hlist, h⟩ := h
  subst h
  intro i instr hget
  rcases Nat.lt_or_ge i bcPre.instructions.length with hlt | hge
  · rw [getElem?_emit_lt _ _ _ hlt] at hget
    have := compile_stmt_list_region_jumps ss ⟨[], []⟩ bcPre hlist i instr
      (by simp) hget
    refine ⟨fun hj => ⟨(this.1 hj).1, ?_⟩, this.2⟩
    have h2 := (this.1 hj).2
    rw [length_emit]
    omega
  · rw [getElem?_emit_ge bcPre _ _ hge] at hget
    split at hget
    · cases hget
      refine ⟨fun hj => ?_, fun hjf => OpCode.noConfusion hjf⟩
      rcases hj with hj | hj <;> exact OpCode.noConfusion hj
    · cases hget

/-- Every compiled program is nonempty and its last instruction is
`BC_HALT`. -/
theorem compile_last_halt {ss : List Stmt} {bc : Bytecode} (h : compile ss = some bc) :
    0 < bc.instructions.length ∧
    bc.instructions[bc.instructions.length - 1]? = some ⟨.bcHalt, 0⟩ := by
  rw [compile, Option.map_eq_some'] at h
  obtain ⟨bcPre, hlist, h⟩ := h
  subst h
  constructor
  · rw [length_emit]; omega
  · have hl : (emit bcPre .bcHalt 0).instructions.length - 1 =
        bcPre.instructions.length := by
      rw [length_emit]
      omega
    rw [hl]
    exact getElem?_emit_self _ _ _

/-- Each `next` dispatch of a compiled program keeps the instruction
pointer strictly inside the instruction sequence. -/
theorem vmStep_ip_valid {ss : List Stmt} {bc : Bytecode} (h : compile ss = some bc)
    {s t : VMState} (hstep : vmStep bc s = .next t)
    (hip : s.ip < bc.instructions.length) : t.ip < bc.instructions.length := by
  obtain ⟨instr, hfetch, hnothalt, hdisj⟩ := vmStep_next_ip hstep
  rcases hdisj with h1 | ⟨hjump, hnn, h2⟩
  · have hlast := (compile_last_halt h).2
    have hne : s.ip ≠ bc.instructions.length - 1 := by
      intro hx
      rw [hx, hlast] at hfetch
      cases hfetch
      exact hnothalt rfl
    omega
  · rw [h2]
    exact ((compile_jumps h s.ip instr hfetch).1 hjump).2

/-- At every fetch during the execution of a compiled program the
instruction pointer is a valid index. -/
theorem vmIter_ip_valid {ss : List Stmt} {bc : Bytecode} (h : compile ss = some bc) :
    ∀ (n : Nat) (s s' : VMState), s.ip < bc.instructions.length →
      vmIter bc n s = some s' → s'.ip < bc.instructions.length
  | 0, s, s', hip, hiter => by
      cases hiter
      exact hip
  | n + 1, s, s', hip, hiter => by
      cases hstep : vmStep bc s with
      | next t =>
          have hiter1 : vmIter bc n t = some s' := by
            simpa [vmIter, hstep] using hiter
          exact vmIter_ip_valid h n t s' (vmStep_ip_valid h hstep hip) hiter1
      | halted t => simp [vmIter, hstep] at hiter
      | error => simp [vmIter, hstep] at hiter

end JMinus

namespace JMinus

mutual

/-- Reference execution is monotone in fuel. -/
theorem execStmt_mono :
    ∀ (f1 f2 : Nat) (st : Stmt) (env : Env) (r : Env × List Int × List Int),
      f1 ≤ f2 → execStmt f1 env st = some r → execStmt f2 env st = some r
  | f1, f2, .slet n e, env, r, hle, h => by
      rw [execStmt.eq_1] at h ⊢
      exact h
  | f1, f2, .yap e, env, r, hle, h => by
      rw [execStmt.eq_2] at h ⊢
      exact h
  | f1, f2, .sexpr e, env, r, hle, h => by
      cases e with
      | binary op el er =>
          cases el with
          | evar n => rw [execStmt.eq_3] at h ⊢; exact h
          | lit w =>
              rw [execStmt.eq_4 _ _ _ _ _ (fun name hx => by cases hx)] at h ⊢
              exact h
          | binary o2 l2 r2 =>
              rw [execStmt.eq_4 _ _ _ _ _ (fun name hx => by cases hx)] at h ⊢
              exact h
          | call f as =>
              rw [execStmt.eq_4 _ _ _ _ _ (fun name hx => by cases hx)] at h ⊢
              exact h
      | lit w => rw [execStmt.eq_5 _ _ _ (fun op l rr hx => by cases hx)] at h ⊢; exact h
      | evar n => rw [execStmt.eq_5 _ _ _ (fun op l rr hx => by cases hx)] at h ⊢; exact h
      | call f as => rw [execStmt.eq_5 _ _ _ (fun op l rr hx => by cases hx)] at h ⊢; exact h
  | f1, f2, .sif cond thenB elseB, env, r, hle, h => by
      cases elseB with
      | none =>
          rw [execStmt.eq_7] at h ⊢
          rw [Option.bind_eq_some] at h ⊢
          obtain ⟨v, hv, hbr⟩ := h
          refine ⟨v, hv, ?_⟩
          by_cases hv0 : v = 0
          · rw [if_pos hv0] at hbr ⊢
            exact hbr
          · rw [if_neg hv0] at hbr ⊢
            exact execStmt_mono f1 f2 thenB env r hle hbr
      | some els =>
          rw [execStmt.eq_6] at h ⊢
          rw [Option.bind_eq_some] at h ⊢
          obtain ⟨v, hv, hbr⟩ := h
          refine ⟨v, hv, ?_⟩
          by_cases hv0 : v = 0
          · rw [if_pos hv0] at hbr ⊢
            exact execStmt_mono f1 f2 els env r hle hbr
          · rw [if_neg hv0] at hbr ⊢
            exact execStmt_mono f1 f2 thenB env r hle hbr
  | 0, f2, .swhile cond body, env, r, hle, h => by
      rw [execStmt.eq_8] at h
      cases h
  | k + 1, f2, .swhile cond body, env, r, hle, h => by
      cases f2 with
      | zero => omega
      | succ m =>
          rw [execStmt.eq_9] at h ⊢
          rw [Option.bind_eq_some] at h ⊢
          obtain ⟨v, hv, hbr⟩ := h
          refine ⟨v, hv, ?_⟩
          by_cases hv0 : v = 0
          · rw [if_pos hv0] at hbr ⊢
            exact hbr
          · rw [if_neg hv0] at hbr ⊢
            rw [Option.bind_eq_some] at hbr ⊢
            obtain ⟨r1, hbody, hbr⟩ := hbr
            refine ⟨r1, execStmt_mono (k + 1) (m + 1) body env r1 hle hbody, ?_⟩
            rw [Option.map_eq_some'] at hbr ⊢
            obtain ⟨r2, hself, hr⟩ := hbr
            exact ⟨r2, execStmt_mono k m (.swhile cond body) r1.1 r2 (by omega) hself, hr⟩
  | f1, f2, .block ss, env, r, hle, h => by
      rw [execStmt.eq_10] at h ⊢
      exact execStmtList_mono f1 f2 ss env r hle h

theorem execStmtList_mono :
    ∀ (f1 f2 : Nat) (ss : List Stmt) (env : Env) (r : Env × List Int × List Int),
      f1 ≤ f2 → execStmtList f1 env ss = some r → execStmtList f2 env ss = some r
  | f1, f2, [], env, r, hle, h => by
      simpa only [execStmtList] using h
  | f1, f2, st :: rest, env, r, hle, h => by
      simp only [execStmtList] at h ⊢
      rw [Option.bind_eq_some] at h ⊢
      obtain ⟨r1, h1, h2⟩ := h
      refine ⟨r1, execStmt_mono f1 f2 st env r1 hle h1, ?_⟩
      rw [Option.map_eq_some'] at h2 ⊢
      obtain ⟨r2, h2a, h2b⟩ := h2
      exact ⟨r2, execStmtList_mono f1 f2 rest r1.1 r2 hle h2a, h2b⟩

end

end JMinus

namespace JMinus

/-- Output of `k` loop iterations, oldest first. -/
def outConcat (outs : Nat → List Int) : Nat → List Int
  | 0 => []
  | k + 1 => outs 0 ++ outConcat (fun i => outs (i + 1)) k

/-- Stack leftovers of `k` loop iterations, newest on top. -/
def junkConcat (junks : Nat → List Int) : Nat → List Int
  | 0 => []
  | k + 1 => junkConcat (fun i => junks (i + 1)) k ++ junks 0

/-- Big-step characterisation of a while loop whose condition is nonzero
for exactly the first `k` evaluations: the body's reference execution is
chained `k` times and the reference execution of the whole loop succeeds. -/
theorem execStmt_while_iter :
    ∀ (k : Nat) (cond : Expr) (body : Stmt) (envs : Nat → Env)
      (outs junks : Nat → List Int) (fuels : Nat → Nat),
      (∀ i, i < k → ∃ v, evalExpr (envs i) cond = some v ∧ v ≠ 0) →
      (∀ i, i < k → execStmt (fuels i) (envs i) body = some (envs (i + 1), outs i, junks i)) →
      evalExpr (envs k) cond = some 0 →
      ∃ F, execStmt F (envs 0) (.swhile cond body) =
        some (envs k, outConcat outs k, junkConcat junks k)
  | 0, cond, body, envs, outs, junks, fuels, htrue, hbody, hfalse => by
      refine ⟨1, ?_⟩
      rw [execStmt.eq_9, hfalse]
      simp [outConcat, junkConcat]
  | k + 1, cond, body, envs, outs, junks, fuels, htrue, hbody, hfalse => by
      obtain ⟨F2, hF2⟩ := execStmt_while_iter k cond body (fun i => envs (i + 1))
        (fun i => outs (i + 1)) (fun i => junks (i + 1)) (fun i => fuels (i + 1))
        (fun i hi => htrue (i + 1) (by omega)) (fun i hi => hbody (i + 1) (by omega))
        hfalse
      obtain ⟨v0, hv0, hv0ne⟩ := htrue 0 (by omega)
      have hb0 := hbody 0 (by omega)
      refine ⟨max (fuels 0) F2 + 1, ?_⟩
      rw [execStmt.eq_9, hv0]
      simp only [Option.some_bind]
      rw [if_neg hv0ne]
      rw [execStmt_mono (fuels 0) (max (fuels 0) F2 + 1) body (envs 0) _ (by omega) hb0]
      simp only [Option.some_bind]
      rw [execStmt_mono F2 (max (fuels 0) F2) (.swhile cond body) (envs 1) _ (by omega) hF2]
      simp only [Option.map_some']
      rfl

/-- Running the compiled form of one statement from a given environment:
the program consists of the statement's code followed by `BC_HALT`, and
the final VM state carries exactly the statement's reference effects. -/
theorem run_single_stmt {st : Stmt} {bc : Bytecode} (hc : compile [st] = some bc)
    {fuel : Nat} {env : Env} {r : Env × List Int × List Int}
    (hexec : execStmt fuel env st = some r) :
    ∃ fl t, vmRun bc fl (initState env) = some t ∧
      t = ⟨bc.instructions.length, r.2.2, r.1, r.2.1⟩ := by
  rw [compile, Option.map_eq_some'] at hc
  obtain ⟨bcPre, hlist, hc⟩ := hc
  subst hc
  simp only [compile_stmt_list, Option.bind_eq_some] at hlist
  obtain ⟨bcW, hW, hnil⟩ := hlist
  cases hnil
  have hreach := compile_stmt_sim fuel st env r hexec ⟨[], []⟩ bcPre hW
    (emit bcPre .bcHalt 0)
    (fun i hi1 hi2 => getElem?_emit_lt bcPre .bcHalt 0 hi2)
    (List.prefix_refl _) [] []
  have hfetch : (emit bcPre .bcHalt 0).instructions[bcPre.instructions.length]? =
      some ⟨.bcHalt, 0⟩ := getElem?_emit_self _ _ _
  have hstep := vmStep_halt (s := ⟨bcPre.instructions.length, r.2.2 ++ [], r.1, [] ++ r.2.1⟩)
    hfetch
  obtain ⟨fl, hrun⟩ := vmRun_of_reaches hreach hstep
  refine ⟨fl, _, hrun, ?_⟩
  rw [length_emit]
  simp

end JMinus

namespace JMinus

theorem compile_expr_unknown_op (op : String) (l r : Expr)
    (hne : op ≠ "=") (hunk : binOpCode op = none) (bc : Bytecode) :
    compile_expr (.binary op l r) bc = none := by
  simp only [compile_expr, if_neg hne, hunk, Option.map_none']
  cases compile_expr l bc with
  | none => rfl
  | some bc1 =>
      simp only [Option.some_bind]
      cases compile_expr r bc1 with
      | none => rfl
      | some bc2 => rfl

theorem compile_expr_bad_target (l r : Expr) (hl : ∀ n, l ≠ .evar n) (bc : Bytecode) :
    compile_expr (.binary "=" l r) bc = none := by
  cases l with
  | evar n => exact absurd rfl (hl n)
  | lit v => rfl
  | binary o a b => rfl
  | call f as => rfl

theorem compile_expr_call_none (f : String) (args : List Expr) (bc : Bytecode) :
    compile_expr (.call f args) bc = none := rfl

/-- A statement that fails to compile (from any bytecode state) aborts
the whole statement-list compilation, wherever it sits in the list. -/
theorem compile_stmt_list_abort :
    ∀ (ss1 : List Stmt) (st : Stmt) (ss2 : List Stmt) (bc : Bytecode),
      (∀ b, compile_stmt st b = none) →
      compile_stmt_list (ss1 ++ st :: ss2) bc = none
  | [], st, ss2, bc, hst => by
      simp only [List.nil_append, compile_stmt_list, hst, Option.none_bind]
  | s1 :: rest, st, ss2, bc, hst => by
      simp only [List.cons_append, compile_stmt_list]
      cases h1 : compile_stmt s1 bc with
      | none => rfl
      | some bc1 =>
          simp only [Option.some_bind]
          exact compile_stmt_list_abort rest st ss2 bc1 hst

/-- The `let x = 5; x = x + 3; print(x);` program of the specification's
concrete scenario, as the parser would deliver it. -/
def c1prog : List Stmt :=
  [.slet "x" (.lit 5),
   .sexpr (.binary "=" (.evar "x") (.binary "+" (.evar "x") (.lit 3))),
   .yap (.evar "x")]

/-- Handwritten bytecode that defines `x := 5` via `BC_DEFINE_VAR` (as
`vm_tests.c` does) and then halts. -/
def defineProg : Bytecode :=
  ⟨[⟨.bcConst, 0⟩, ⟨.bcDefineVar, 120⟩, ⟨.bcHalt, 0⟩], [5]⟩

/-- Handwritten bytecode that loads `x` and prints it. -/
def loadProg : Bytecode :=
  ⟨[⟨.bcLoadVar, 120⟩, ⟨.bcPrint, 0⟩, ⟨.bcHalt, 0⟩], []⟩

end JMinus

namespace JMinus

theorem binOpCode_ne_assign {op : String} {opc : OpCode}
    (h : binOpCode op = some opc) : op ≠ "=" := by
  intro hx
  subst hx
  rw [show binOpCode "=" = none from rfl] at h
  cases h

theorem binOpCode_cases {op : String} {opc : OpCode} (h : binOpCode op = some opc) :
    (op = "+" ∧ opc = .bcAdd) ∨
    (op = "-" ∧ opc = .bcSub) ∨
    (op = "*" ∧ opc = .bcMul) ∨
    (op = "/" ∧ opc = .bcDiv) ∨
    (op = "==" ∧ opc = .bcEqual) ∨
    (op = "!=" ∧ opc = .bcNotEqual) ∨
    (op = "<" ∧ opc = .bcLess) ∨
    (op = "<=" ∧ opc = .bcLessEqual) ∨
    (op = ">" ∧ opc = .bcGreater) ∨
    (op = ">=" ∧ opc = .bcGreaterEqual) := by
  unfold binOpCode at h
  by_cases h1 : op = "+"
  · rw [if_pos h1] at h
    cases h
    exact Or.inl ⟨h1, rfl⟩
  · rw [if_neg h1] at h
    by_cases h2 : op = "-"
    · rw [if_pos h2] at h
      cases h
      exact Or.inr (Or.inl ⟨h2, rfl⟩)
    · rw [if_neg h2] at h
      by_cases h3 : op = "*"
      · rw [if_pos h3] at h
        cases h
        exact Or.inr (Or.inr (Or.inl ⟨h3, rfl⟩))
      · rw [if_neg h3] at h
        by_cases h4 : op = "/"
        · rw [if_pos h4] at h
          cases h
          exact Or.inr (Or.inr (Or.inr (Or.inl ⟨h4, rfl⟩)))
        · rw [if_neg h4] at h
          by_cases h5 : op = "=="
          · rw [if_pos h5] at h
            cases h
            exact Or.inr (Or.inr (Or.inr (Or.inr (Or.inl ⟨h5, rfl⟩))))
          · rw [if_neg h5] at h
            by_cases h6 : op = "!="
            · rw [if_pos h6] at h
              cases h
              exact Or.inr (Or.inr (Or.inr (Or.inr (Or.inr (Or.inl ⟨h6, rfl⟩)))))
            · rw [if_neg h6] at h
              by_cases h7 : op = "<"
              · rw [if_pos h7] at h
                cases h
                exact Or.inr (Or.inr (Or.inr (Or.inr (Or.inr (Or.inr (Or.inl ⟨h7, rfl⟩))))))
              · rw [if_neg h7] at h
                by_cases h8 : op = "<="
                · rw [if_pos h8] at h
                  cases h
                  exact Or.inr (Or.inr (Or.inr (Or.inr (Or.inr (Or.inr (Or.inr (Or.inl ⟨h8, rfl⟩)))))))
                · rw [if_neg h8] at h
                  by_cases h9 : op = ">"
                  · rw [if_pos h9] at h
                    cases h
                    exact Or.inr (Or.inr (Or.inr (Or.inr (Or.inr (Or.inr (Or.inr (Or.inr (Or.inl ⟨h9, rfl⟩))))))))
                  · rw [if_neg h9] at h
                    by_cases h10 : op = ">="
                    · rw [if_pos h10] at h
                      cases h
                      exact Or.inr (Or.inr (Or.inr (Or.inr (Or.inr (Or.inr (Or.inr (Or.inr (Or.inr (⟨h10, rfl⟩)))))))))
                    · rw [if_neg h10] at h
                      cases h

theorem binOp_result_exists (op : String) (opc : OpCode) (a b : Int)
    (hopc : binOpCode op = some opc) (hdiv : op = "/" → b ≠ 0) :
    ∃ v, arithResult opc a b = some v := by
  rcases binOpCode_cases hopc with ⟨ho, hc⟩ | ⟨ho, hc⟩ | ⟨ho, hc⟩ | ⟨ho, hc⟩ | ⟨ho, hc⟩ |
    ⟨ho, hc⟩ | ⟨ho, hc⟩ | ⟨ho, hc⟩ | ⟨ho, hc⟩ | ⟨ho, hc⟩ <;> subst hc
  · exact ⟨a + b, rfl⟩
  · exact ⟨a - b, rfl⟩
  · exact ⟨a * b, rfl⟩
  · exact ⟨Int.tdiv a b, by simp [arithResult, hdiv ho]⟩
  · exact ⟨boolToInt (a = b), rfl⟩
  · exact ⟨boolToInt (a ≠ b), rfl⟩
  · exact ⟨boolToInt (a < b), rfl⟩
  · exact ⟨boolToInt (a ≤ b), rfl⟩
  · exact ⟨boolToInt (b < a), rfl⟩
  · exact ⟨boolToInt (b ≤ a), rfl⟩

/-- C2: for every supported binary operator (the ten lexemes `binOpCode`
accepts) and every literal operand pair, compiling `print(a op b)` emits
the left operand's code, then the right's, then the opcode; executing the
program prints exactly one value, the host evaluation of `a op b`
(comparisons as 1/0, division truncating); and the VM's dispatch of the
opcode pops the right operand first (the stack top), then the left, and
pushes the one result. -/
theorem compiled_binop_print_eval (op : String) (a b : Int) (opc : OpCode)
    (hopc : binOpCode op = some opc) (hdiv : op = "/" → b ≠ 0) :
    ∃ v, binFn op a b = some v ∧
      compile [.yap (.binary op (.lit a) (.lit b))] =
        some ⟨[⟨.bcConst, 0⟩, ⟨.bcConst, 1⟩, ⟨opc, 0⟩, ⟨.bcPrint, 0⟩, ⟨.bcHalt, 0⟩],
          [a, b]⟩ ∧
      (∀ env : Env, ∃ fl t,
        vmRun ⟨[⟨.bcConst, 0⟩, ⟨.bcConst, 1⟩, ⟨opc, 0⟩, ⟨.bcPrint, 0⟩, ⟨.bcHalt, 0⟩],
          [a, b]⟩ fl (initState env) = some t ∧ t.output = [v] ∧ t.stack = []) ∧
      (∀ (x y : Int) (rest : List Int) (env : Env) (out : List Int),
        (op = "/" → y ≠ 0) →
        ∃ w, binFn op x y = some w ∧
          vmStep ⟨[⟨opc, 0⟩], []⟩ ⟨0, y :: x :: rest, env, out⟩ =
            .next ⟨1, w :: rest, env, out⟩) := by
  have hne : op ≠ "=" := binOpCode_ne_assign hopc
  obtain ⟨v, hv⟩ := binOp_result_exists op opc a b hopc hdiv
  have hbf : binFn op a b = some v := by rw [binFn, hopc, Option.some_bind, hv]
  have hce : compile_expr (.binary op (.lit a) (.lit b)) (⟨[], []⟩ : Bytecode) =
      some ⟨[⟨.bcConst, 0⟩, ⟨.bcConst, 1⟩, ⟨opc, 0⟩], [a, b]⟩ := by
    simp only [compile_expr, if_neg hne, hopc, Option.some_bind, Option.map_some']
    rfl
  have hcomp : compile [.yap (.binary op (.lit a) (.lit b))] =
      some ⟨[⟨.bcConst, 0⟩, ⟨.bcConst, 1⟩, ⟨opc, 0⟩, ⟨.bcPrint, 0⟩, ⟨.bcHalt, 0⟩],
        [a, b]⟩ := by
    simp only [compile, compile_stmt_list, compile_stmt, hce, Option.some_bind,
      Option.map_some']
    rfl
  refine ⟨v, hbf, hcomp, ?_, ?_⟩
  · intro env
    have hev : evalExpr env (.binary op (.lit a) (.lit b)) = some v := by
      simp only [evalExpr, if_neg hne, Option.some_bind]
      exact hbf
    have hexec : execStmt 1 env (.yap (.binary op (.lit a) (.lit b))) =
        some (env, [v], []) := by
      rw [execStmt.eq_2, hev]
      rfl
    obtain ⟨fl, t, hrun, ht⟩ := run_single_stmt hcomp hexec
    exact ⟨fl, t, hrun, by rw [ht], by rw [ht]⟩
  · intro x y rest env out hdy
    obtain ⟨w, hw⟩ := binOp_result_exists op opc x y hopc hdy
    refine ⟨w, by rw [binFn, hopc, Option.some_bind, hw], ?_⟩
    exact vmStep_arith (s := ⟨0, y :: x :: rest, env, out⟩) rfl rfl hw

/-- C2 witness: the subtraction instance `print(5 - 3)` prints `2`, and
from the stack `[3, 5]` the subtraction opcode pops right operand 3 first
and pushes `5 - 3`. -/
theorem compiled_binop_print_eval_witness :
    ∃ v, binFn "-" 5 3 = some v ∧
      compile [.yap (.binary "-" (.lit 5) (.lit 3))] =
        some ⟨[⟨.bcConst, 0⟩, ⟨.bcConst, 1⟩, ⟨.bcSub, 0⟩, ⟨.bcPrint, 0⟩, ⟨.bcHalt, 0⟩],
          [5, 3]⟩ ∧
      (∀ env : Env, ∃ fl t,
        vmRun ⟨[⟨.bcConst, 0⟩, ⟨.bcConst, 1⟩, ⟨.bcSub, 0⟩, ⟨.bcPrint, 0⟩, ⟨.bcHalt, 0⟩],
          [5, 3]⟩ fl (initState env) = some t ∧ t.output = [v] ∧ t.stack = []) ∧
      (∀ (x y : Int) (rest : List Int) (env : Env) (out : List Int),
        ("-" = "/" → y ≠ 0) →
        ∃ w, binFn "-" x y = some w ∧
          vmStep ⟨[⟨.bcSub, 0⟩], []⟩ ⟨0, y :: x :: rest, env, out⟩ =
            .next ⟨1, w :: rest, env, out⟩) :=
  compiled_binop_print_eval "-" 5 3 .bcSub rfl (by decide)

end JMinus

namespace JMinus

/-- C1: compiling `let x = 5; x = x + 3; print(x);` yields constant pool
`[5, 3]` in that order — but executing the program from a fresh Scope
Store never prints 8: the compiled `let` is a `BC_SET_VAR`, whose
`assign_var` call dies with "Undefined variable" on the empty store (the
repository's own `compiler_tests.c` instead expects `BC_DEFINE_VAR` for a
`let`).  After one dispatch the VM holds `5` on the stack; the second
dispatch is the fatal one, and no fuel makes the run complete. -/
theorem c1_scenario_constants_but_fatal_run :
    ∃ bc, compile c1prog = some bc ∧
      bc.constants = [5, 3] ∧
      bc.instructions[1]? = some ⟨.bcSetVar, 120⟩ ∧
      vmIter bc 1 (initState Env.empty) = some ⟨1, [5], Env.empty, []⟩ ∧
      vmStep bc ⟨1, [5], Env.empty, []⟩ = .error ∧
      ∀ fuel, vmRun bc fuel (initState Env.empty) = none := by
  refine ⟨_, rfl, rfl, rfl, rfl, rfl, ?_⟩
  intro fuel
  rcases fuel with _ | _ | n <;> rfl

/-- C8: an unknown binary operator, an assignment whose left side is not
a variable node, and the unhandled call tag each make `compile_expr` fail,
and a statement containing any of them makes the whole compilation return
nothing, wherever the statement sits in the program. -/
theorem compile_failure_is_fatal (op : String) (l r : Expr) (f : String)
    (args : List Expr) (ss1 ss2 : List Stmt)
    (hne : op ≠ "=") (hunk : binOpCode op = none) (hl : ∀ n, l ≠ Expr.evar n) :
    (∀ bc, compile_expr (.binary op l r) bc = none) ∧
    compile (ss1 ++ .sexpr (.binary op l r) :: ss2) = none ∧
    (∀ bc, compile_expr (.binary "=" l r) bc = none) ∧
    compile (ss1 ++ .sexpr (.binary "=" l r) :: ss2) = none ∧
    (∀ bc, compile_expr (.call f args) bc = none) ∧
    compile (ss1 ++ .sexpr (.call f args) :: ss2) = none := by
  refine ⟨compile_expr_unknown_op op l r hne hunk, ?_,
    compile_expr_bad_target l r hl, ?_,
    compile_expr_call_none f args, ?_⟩ <;>
    rw [compile, compile_stmt_list_abort _ _ _ _
      (fun b => by simp only [compile_stmt]; first
        | exact compile_expr_unknown_op op l r hne hunk b
        | exact compile_expr_bad_target l r hl b
        | exact compile_expr_call_none f args b)] <;> rfl

/-- C8 witness: the operator `%`, the assignment target `1 = 2`, and a
call expression each abort an otherwise fine two-statement program. -/
theorem compile_failure_is_fatal_witness :
    (∀ bc, compile_expr (.binary "%" (.lit 1) (.lit 2)) bc = none) ∧
    compile ([] ++ .sexpr (.binary "%" (.lit 1) (.lit 2)) :: [.yap (.lit 7)]) = none ∧
    (∀ bc, compile_expr (.binary "=" (.lit 1) (.lit 2)) bc = none) ∧
    compile ([] ++ .sexpr (.binary "=" (.lit 1) (.lit 2)) :: [.yap (.lit 7)]) = none ∧
    (∀ bc, compile_expr (.call "f" []) bc = none) ∧
    compile ([] ++ .sexpr (.call "f" []) :: [.yap (.lit 7)]) = none :=
  compile_failure_is_fatal "%" (.lit 1) (.lit 2) "f" [] [] [.yap (.lit 7)]
    (by decide) rfl (fun n h => Expr.noConfusion h)

/-- C9: two identifiers with the same first character get the same
operand in variable references, assignments and `let` bindings, so at
runtime they denote the same binding: the concrete program
`ab = 1; print(ax);` started with only `a` bound prints the value that
was assigned under the name `ab`. -/
theorem identifiers_collide_on_first_char (s1 s2 : String) (e : Expr) (bc : Bytecode)
    (hhead : s1.toList.headD (Char.ofNat 0) = s2.toList.headD (Char.ofNat 0)) :
    varId s1 = varId s2 ∧
    compile_expr (.evar s1) bc = compile_expr (.evar s2) bc ∧
    compile_expr (.binary "=" (.evar s1) e) bc =
      compile_expr (.binary "=" (.evar s2) e) bc ∧
    compile_stmt (.slet s1 e) bc = compile_stmt (.slet s2 e) bc ∧
    (∃ bcD, compile [.sexpr (.binary "=" (.evar "ab") (.lit 1)), .yap (.evar "ax")] =
        some bcD ∧
      ∃ t, vmRun bcD 10 (initState (Env.mk [("a", 0)] none)) = some t ∧
        t.output = [1]) := by
  have hid : varId s1 = varId s2 := by
    unfold varId
    rw [hhead]
  refine ⟨hid, by simp only [compile_expr, hid], by simp only [compile_expr, hid],
    by simp only [compile_stmt, hid], ⟨_, rfl, _, rfl, rfl⟩⟩

/-- C9 witness: `ab` and `ax` share the first character `a` and collide. -/
theorem identifiers_collide_on_first_char_witness :
    varId "ab" = varId "ax" ∧
    compile_expr (.evar "ab") ⟨[], []⟩ = compile_expr (.evar "ax") ⟨[], []⟩ ∧
    compile_expr (.binary "=" (.evar "ab") (.lit 0)) ⟨[], []⟩ =
      compile_expr (.binary "=" (.evar "ax") (.lit 0)) ⟨[], []⟩ ∧
    compile_stmt (.slet "ab" (.lit 0)) ⟨[], []⟩ =
      compile_stmt (.slet "ax" (.lit 0)) ⟨[], []⟩ ∧
    (∃ bcD, compile [.sexpr (.binary "=" (.evar "ab") (.lit 1)), .yap (.evar "ax")] =
        some bcD ∧
      ∃ t, vmRun bcD 10 (initState (Env.mk [("a", 0)] none)) = some t ∧
        t.output = [1]) :=
  identifiers_collide_on_first_char "ab" "ax" (.lit 0) ⟨[], []⟩ rfl

end JMinus

namespace JMinus

/-- C10: the compiled code of an assignment `x = e` evaluates `e`, stores
the value with `BC_SET_VAR`, and pushes nothing: the operand stack ends at
exactly its prior depth.  Consequently an assignment used as the operand
of an enclosing operation supplies no value: `print(x = 1)` compiles, but
its `BC_PRINT` finds an empty stack and the run never completes. -/
theorem assignment_leaves_stack_depth (n : String) (e : Expr) (bc bc' : Bytecode)
    (env env1 : Env) (v : Int)
    (hc : compile_expr (.binary "=" (.evar n) e) bc = some bc')
    (hev : evalExpr env e = some v)
    (hassign : assign_var env (truncName n) v = some env1) :
    (∀ stack out, Reaches bc' ⟨bc.instructions.length, stack, env, out⟩
      ⟨bc'.instructions.length, stack, env1, out⟩) ∧
    (∃ bcP, compile [.yap (.binary "=" (.evar "x") (.lit 1))] = some bcP ∧
      ∀ fuel, vmRun bcP fuel (initState (Env.mk [("x", 0)] none)) = none) := by
  constructor
  · intro stack out
    have hc2 : (compile_expr e bc).map
        (fun b => emit b OpCode.bcSetVar (varId n)) = some bc' := hc
    rw [Option.map_eq_some'] at hc2
    obtain ⟨bcE, hce, hc2⟩ := hc2
    subst hc2
    have hreach1 := compile_expr_sim e bc bcE hce (emit bcE .bcSetVar (varId n))
      (fun i hi1 hi2 => (getElem?_emit_lt bcE .bcSetVar (varId n) hi2))
      (List.prefix_refl _) env stack out v hev
    have hfetch : (emit bcE .bcSetVar (varId n)).instructions[bcE.instructions.length]? =
        some ⟨.bcSetVar, varId n⟩ := getElem?_emit_self _ _ _
    have hassign1 : assign_var env (operandName (varId n)) v = some env1 := by
      simpa [truncName] using hassign
    have hstep := vmStep_setVar
      (s := ⟨bcE.instructions.length, v :: stack, env, out⟩) hfetch rfl hassign1
    rw [length_emit]
    exact hreach1.trans (Reaches.single hstep)
  · refine ⟨_, rfl, ?_⟩
    intro fuel
    rcases fuel with _ | _ | _ | m <;> rfl

/-- C10 witness: the assignment `x = 1` run from a store holding `x`
restores the empty stack exactly, and `print(x = 1)` dies. -/
theorem assignment_leaves_stack_depth_witness :
    Reaches ⟨[⟨.bcConst, 0⟩, ⟨.bcSetVar, 120⟩], [1]⟩
      ⟨0, [], Env.mk [("x", 0)] none, []⟩
      ⟨2, [], Env.mk [("x", 1)] none, []⟩ ∧
    (∃ bcP, compile [.yap (.binary "=" (.evar "x") (.lit 1))] = some bcP ∧
      ∀ fuel, vmRun bcP fuel (initState (Env.mk [("x", 0)] none)) = none) := by
  have h := assignment_leaves_stack_depth "x" (.lit 1) ⟨[], []⟩
    ⟨[⟨.bcConst, 0⟩, ⟨.bcSetVar, 120⟩], [1]⟩
    (Env.mk [("x", 0)] none) (Env.mk [("x", 1)] none) 1 rfl rfl rfl
  exact ⟨h.1 [] [], h.2⟩

end JMinus

namespace JMinus

/-- C3: a compiled while-statement whose condition evaluates nonzero on
each of the first `k` evaluations and `0` on evaluation `k + 1` executes
its body exactly `k` times (chaining the body's reference executions) and
then reaches `BC_HALT` normally, with exactly the bodies' printed output
and stack leftovers. -/
theorem while_runs_body_k_times (cond : Expr) (body : Stmt) (bc : Bytecode)
    (k : Nat) (envs : Nat → Env) (outs junks : Nat → List Int) (fuels : Nat → Nat)
    (hc : compile [.swhile cond body] = some bc)
    (htrue : ∀ i, i < k → ∃ v, evalExpr (envs i) cond = some v ∧ v ≠ 0)
    (hbody : ∀ i, i < k →
      execStmt (fuels i) (envs i) body = some (envs (i + 1), outs i, junks i))
    (hfalse : evalExpr (envs k) cond = some 0) :
    ∃ fl t, vmRun bc fl (initState (envs 0)) = some t ∧
      t = ⟨bc.instructions.length, junkConcat junks k, envs k, outConcat outs k⟩ := by
  obtain ⟨F, hF⟩ := execStmt_while_iter k cond body envs outs junks fuels htrue hbody hfalse
  exact run_single_stmt hc hF

/-- C3 witness: `while (i < 1) { i = i + 1; }` from `i = 0` runs its body
exactly once and halts with `i = 1` and no output. -/
theorem while_runs_body_k_times_witness :
    ∃ fl t, vmRun
      ⟨[⟨.bcLoadVar, 105⟩, ⟨.bcConst, 0⟩, ⟨.bcLess, 0⟩, ⟨.bcJumpIfFalse, 9⟩,
        ⟨.bcLoadVar, 105⟩, ⟨.bcConst, 1⟩, ⟨.bcAdd, 0⟩, ⟨.bcSetVar, 105⟩,
        ⟨.bcJump, 0⟩, ⟨.bcHalt, 0⟩], [1, 1]⟩ fl
      (initState (Env.mk [("i", 0)] none)) = some t ∧
    t = ⟨10, junkConcat (fun _ => []) 1, Env.mk [("i", 1)] none,
      outConcat (fun _ => []) 1⟩ := by
  have h := while_runs_body_k_times
    (.binary "<" (.evar "i") (.lit 1))
    (.sexpr (.binary "=" (.evar "i") (.binary "+" (.evar "i") (.lit 1))))
    ⟨[⟨.bcLoadVar, 105⟩, ⟨.bcConst, 0⟩, ⟨.bcLess, 0⟩, ⟨.bcJumpIfFalse, 9⟩,
      ⟨.bcLoadVar, 105⟩, ⟨.bcConst, 1⟩, ⟨.bcAdd, 0⟩, ⟨.bcSetVar, 105⟩,
      ⟨.bcJump, 0⟩, ⟨.bcHalt, 0⟩], [1, 1]⟩
    1 (fun n => if n = 0 then Env.mk [("i", 0)] none else Env.mk [("i", 1)] none)
    (fun _ => []) (fun _ => []) (fun _ => 1)
    rfl
    (fun i hi => by
      interval_cases i
      exact ⟨1, rfl, by decide⟩)
    (fun i hi => by
      interval_cases i
      rw [execStmt.eq_3]
      rfl)
    rfl
  simpa using h

/-- C4: for a compiled if-statement whose condition evaluates to `v`:
when `v` is nonzero the run performs exactly the then-branch's reference
effects, when `v = 0` and an else-branch exists exactly the else-branch's,
and when `v = 0` with no else-branch nothing at all — control resumes at
the instruction after the if (`BC_HALT` here) with environment, output
and stack untouched. -/
theorem if_branch_selection (cond : Expr) (thenB : Stmt) (elseB : Option Stmt)
    (bc : Bytecode) (env : Env) (v : Int)
    (hc : compile [.sif cond thenB elseB] = some bc)
    (hev : evalExpr env cond = some v) :
    (∀ fuel r, v ≠ 0 → execStmt fuel env thenB = some r →
      ∃ fl t, vmRun bc fl (initState env) = some t ∧
        t = ⟨bc.instructions.length, r.2.2, r.1, r.2.1⟩) ∧
    (∀ fuel r els, elseB = some els → v = 0 → execStmt fuel env els = some r →
      ∃ fl t, vmRun bc fl (initState env) = some t ∧
        t = ⟨bc.instructions.length, r.2.2, r.1, r.2.1⟩) ∧
    (elseB = none → v = 0 →
      ∃ fl t, vmRun bc fl (initState env) = some t ∧
        t = ⟨bc.instructions.length, [], env, []⟩) := by
  refine ⟨?_, ?_, ?_⟩
  · intro fuel r hv hex
    have hsif : execStmt fuel env (.sif cond thenB elseB) = some r := by
      cases elseB with
      | none =>
          rw [execStmt.eq_7, hev, Option.some_bind, if_neg hv]
          exact hex
      | some els =>
          rw [execStmt.eq_6, hev, Option.some_bind, if_neg hv]
          exact hex
    exact run_single_stmt hc hsif
  · intro fuel r els hels hv hex
    subst hels
    have hsif : execStmt fuel env (.sif cond thenB (some els)) = some r := by
      rw [execStmt.eq_6, hev, Option.some_bind, if_pos hv]
      exact hex
    exact run_single_stmt hc hsif
  · intro hels hv
    subst hels
    have hsif : execStmt 1 env (.sif cond thenB none) = some (env, [], []) := by
      rw [execStmt.eq_7, hev, Option.some_bind, if_pos hv]
    exact run_single_stmt hc hsif

/-- C4 witness: `if (1 == 1) { print(10); } else { print(20); }` takes the
then-branch and prints exactly `10`. -/
theorem if_branch_selection_witness :
    ∃ fl t, vmRun
      ⟨[⟨.bcConst, 0⟩, ⟨.bcConst, 1⟩, ⟨.bcEqual, 0⟩, ⟨.bcJumpIfFalse, 7⟩,
        ⟨.bcConst, 2⟩, ⟨.bcPrint, 0⟩, ⟨.bcJump, 9⟩, ⟨.bcConst, 3⟩,
        ⟨.bcPrint, 0⟩, ⟨.bcHalt, 0⟩], [1, 1, 10, 20]⟩ fl
      (initState Env.empty) = some t ∧
    t = ⟨10, ([] : List Int), Env.empty, [10]⟩ := by
  have h := (if_branch_selection (.binary "==" (.lit 1) (.lit 1))
    (.yap (.lit 10)) (some (.yap (.lit 20)))
    ⟨[⟨.bcConst, 0⟩, ⟨.bcConst, 1⟩, ⟨.bcEqual, 0⟩, ⟨.bcJumpIfFalse, 7⟩,
      ⟨.bcConst, 2⟩, ⟨.bcPrint, 0⟩, ⟨.bcJump, 9⟩, ⟨.bcConst, 3⟩,
      ⟨.bcPrint, 0⟩, ⟨.bcHalt, 0⟩], [1, 1, 10, 20]⟩
    Env.empty 1 rfl rfl).1 1 (Env.empty, [10], []) (by decide)
    (by rw [execStmt.eq_2]; rfl)
  simpa using h

end JMinus

namespace JMinus

/-- C5: every compiled program ends in `BC_HALT`, and at every fetch
during its execution (every state the dispatch loop reaches) the
instruction pointer is a valid index into the instruction sequence — the
loop never runs off the end. -/
theorem compiled_program_ip_always_valid (ss : List Stmt) (bc : Bytecode)
    (env : Env) (n : Nat) (s' : VMState)
    (hc : compile ss = some bc)
    (hiter : vmIter bc n (initState env) = some s') :
    0 < bc.instructions.length ∧
    bc.instructions[bc.instructions.length - 1]? = some ⟨.bcHalt, 0⟩ ∧
    s'.ip < bc.instructions.length := by
  have h1 := compile_last_halt hc
  exact ⟨h1.1, h1.2, vmIter_ip_valid hc n _ s' h1.1 hiter⟩

/-- C5 witness: after two dispatches of the compiled `print(1)` the
instruction pointer still sits inside the three-instruction program, and
the program ends in `BC_HALT`. -/
theorem compiled_program_ip_always_valid_witness :
    0 < (⟨[⟨.bcConst, 0⟩, ⟨.bcPrint, 0⟩, ⟨.bcHalt, 0⟩], [1]⟩ : Bytecode).instructions.length ∧
    (⟨[⟨.bcConst, 0⟩, ⟨.bcPrint, 0⟩, ⟨.bcHalt, 0⟩], [1]⟩ : Bytecode).instructions[
      (⟨[⟨.bcConst, 0⟩, ⟨.bcPrint, 0⟩, ⟨.bcHalt, 0⟩], [1]⟩ : Bytecode).instructions.length - 1]? =
        some ⟨.bcHalt, 0⟩ ∧
    (⟨2, [], Env.empty, [1]⟩ : VMState).ip <
      (⟨[⟨.bcConst, 0⟩, ⟨.bcPrint, 0⟩, ⟨.bcHalt, 0⟩], [1]⟩ : Bytecode).instructions.length :=
  compiled_program_ip_always_valid [.yap (.lit 1)]
    ⟨[⟨.bcConst, 0⟩, ⟨.bcPrint, 0⟩, ⟨.bcHalt, 0⟩], [1]⟩ Env.empty 2
    ⟨2, [], Env.empty, [1]⟩ rfl rfl

/-- C6: in a finished compiled program every jump operand is nonnegative
and at most the instruction count (in fact strictly below it), and every
conditional jump's operand was back-patched to a strictly forward target
— in particular no conditional jump still carries the placeholder `0`
written at emission time. -/
theorem jump_targets_valid (ss : List Stmt) (bc : Bytecode) (i : Nat)
    (instr : Instruction) (hc : compile ss = some bc)
    (hget : bc.instructions[i]? = some instr)
    (hj : instr.opcode = .bcJump ∨ instr.opcode = .bcJumpIfFalse) :
    0 ≤ instr.operand ∧ instr.operand.toNat ≤ bc.instructions.length ∧
    (instr.opcode = .bcJumpIfFalse → i < instr.operand.toNat ∧ instr.operand ≠ 0) := by
  have h := compile_jumps hc i instr hget
  refine ⟨(h.1 hj).1, le_of_lt (h.1 hj).2, fun hjf => ⟨h.2 hjf, ?_⟩⟩
  intro hzero
  have := h.2 hjf
  rw [hzero] at this
  simp at this

/-- C6 witness: the conditional jump of the compiled
`if (1 == 1) { print(10); } else { print(20); }` sits at index 3 and was
patched to the valid forward target 7. -/
theorem jump_targets_valid_witness :
    0 ≤ (⟨.bcJumpIfFalse, 7⟩ : Instruction).operand ∧
    (⟨.bcJumpIfFalse, 7⟩ : Instruction).operand.toNat ≤
      (⟨[⟨.bcConst, 0⟩, ⟨.bcConst, 1⟩, ⟨.bcEqual, 0⟩, ⟨.bcJumpIfFalse, 7⟩,
        ⟨.bcConst, 2⟩, ⟨.bcPrint, 0⟩, ⟨.bcJump, 9⟩, ⟨.bcConst, 3⟩,
        ⟨.bcPrint, 0⟩, ⟨.bcHalt, 0⟩], [1, 1, 10, 20]⟩ : Bytecode).instructions.length ∧
    ((⟨.bcJumpIfFalse, 7⟩ : Instruction).opcode = .bcJumpIfFalse →
      3 < (⟨.bcJumpIfFalse, 7⟩ : Instruction).operand.toNat ∧
      (⟨.bcJumpIfFalse, 7⟩ : Instruction).operand ≠ 0) :=
  jump_targets_valid
    [.sif (.binary "==" (.lit 1) (.lit 1)) (.yap (.lit 10)) (some (.yap (.lit 20)))]
    ⟨[⟨.bcConst, 0⟩, ⟨.bcConst, 1⟩, ⟨.bcEqual, 0⟩, ⟨.bcJumpIfFalse, 7⟩,
      ⟨.bcConst, 2⟩, ⟨.bcPrint, 0⟩, ⟨.bcJump, 9⟩, ⟨.bcConst, 3⟩,
      ⟨.bcPrint, 0⟩, ⟨.bcHalt, 0⟩], [1, 1, 10, 20]⟩ 3 ⟨.bcJumpIfFalse, 7⟩
    rfl rfl (Or.inr rfl)

/-- C7 counterexample: the Scope Store is not per-run.  A first run that
defines `x` via `BC_DEFINE_VAR` (as the repository's own VM tests do)
leaves the binding in the static `vm_env`; the following run of a
program that merely loads and prints `x` succeeds with output `5`.  Had
the second execution started from an empty Scope Store — as the claim
states — it would have died on the undefined variable, which is exactly
what happens when `loadProg` runs first. -/
theorem scope_store_persists_counterexample :
    (∃ p1, runOnce none defineProg 10 = some (p1, []) ∧
      ∃ p2, runOnce p1 loadProg 10 = some (p2, [5])) ∧
    runOnce none loadProg 10 = none := by
  exact ⟨⟨_, rfl, _, rfl⟩, rfl⟩

/-- C7 (amended): the VM's Scope Store is a process-global created lazily
at the first `run` call from the NULL static and never discarded: a run
leaves its final environment in the static, and the next execution starts
from exactly that environment rather than a fresh one. -/
theorem scope_store_process_global (bc1 bc2 : Bytecode) (f1 f2 : Nat)
    (p1 : ProcEnv) (o1 : List Int)
    (h1 : runOnce none bc1 f1 = some (p1, o1)) :
    (∃ t, vmRun bc1 f1 (initState Env.empty) = some t ∧
      p1 = some t.env ∧ o1 = t.output) ∧
    runOnce p1 bc2 f2 = (vmRun bc2 f2 (initState (p1.getD Env.empty))).map
      (fun t => (some t.env, t.output)) := by
  constructor
  · unfold runOnce at h1
    rw [Option.map_eq_some'] at h1
    obtain ⟨t, ht, heq⟩ := h1
    cases heq
    exact ⟨t, ht, rfl, rfl⟩
  · rfl

/-- C7 amended-claim witness: after the defining run the static holds
`x = 5`, and the next run starts from exactly that environment. -/
theorem scope_store_process_global_witness :
    (∃ t, vmRun defineProg 10 (initState Env.empty) = some t ∧
      some (Env.mk [("x", 5)] none) = some t.env ∧ ([] : List Int) = t.output) ∧
    runOnce (some (Env.mk [("x", 5)] none)) loadProg 10 =
      (vmRun loadProg 10
        (initState ((some (Env.mk [("x", 5)] none)).getD Env.empty))).map
        (fun t => (some t.env, t.output)) :=
  scope_store_process_global defineProg loadProg 10 10
    (some (Env.mk [("x", 5)] none)) [] rfl

end JMinus
